import Mathlib

/-!
Verification development for the `asciigraf` ASCII-network parser
(`src/asciigraf/asciigraf.py`).  The Python source is shallowly embedded:
each Python function becomes an executable Lean definition over lists of
characters and association lists (modelling `OrderedDict`), and the claims
of the specification are settled as theorems about those definitions.
-/

namespace Asciigraf

/-- 2-D grid position, embedding the source class `Point`
(integer coordinates `x`, `y`). -/
structure Point where
  x : Int
  y : Int
deriving DecidableEq

/-- Source `Point.__add__`: componentwise addition returning a new point. -/
def Point.add (a b : Point) : Point := ⟨a.x + b.x, a.y + b.y⟩

/-- Source `Point.__sub__`: componentwise subtraction returning a new point. -/
def Point.sub (a b : Point) : Point := ⟨a.x - b.x, a.y - b.y⟩

/-- Source `Point.__lt__`:
`self.y < other.y or (not self.y > other.y and self.x < other.x)`. -/
def Point.lt (a b : Point) : Bool :=
  decide (a.y < b.y) || (!(decide (a.y > b.y)) && decide (a.x < b.x))

/-- First-match association-list lookup, modelling `dict.__getitem__` /
`dict.get` on maps whose keys are kept unique by `odInsert`. -/
def alookup {κ α : Type} [DecidableEq κ] : List (κ × α) → κ → Option α
  | [], _ => none
  | (k', v) :: t, k => if k' = k then some v else alookup t k

/-- `OrderedDict.__setitem__`: replace the value in place when the key is
already present (keeping its position), otherwise append at the end. -/
def odInsert {κ α : Type} [DecidableEq κ] : List (κ × α) → κ → α → List (κ × α)
  | [], k, v => [(k, v)]
  | (k', v') :: t, k, v => if k' = k then (k, v) :: t else (k', v') :: odInsert t k v

/-- Building a dict / `OrderedDict` out of a sequence of key-value pairs:
first occurrence fixes the position of a key, last occurrence its value. -/
def dictOfPairs {κ α : Type} [DecidableEq κ] (l : List (κ × α)) : List (κ × α) :=
  l.foldl (fun m kv => odInsert m kv.1 kv.2) []

/-- Python `str.split("\n")`: splitting the empty string yields `[""]`;
a trailing newline yields a trailing empty line. -/
def splitLines : List Char → List (List Char)
  | [] => [[]]
  | c :: rest =>
    if c = '\n' then [] :: splitLines rest
    else
      match splitLines rest with
      | [] => [[c]]
      | l :: ls => (c :: l) :: ls

/-- Source `char_iter`: every character of the drawing together with its
grid position (column `x`, row `y`). -/
def char_iter (s : List Char) : List (Point × Char) :=
  ((splitLines s).enum.map (fun rl =>
    rl.2.enum.map (fun cc => (Point.mk (Int.ofNat cc.1) (Int.ofNat rl.1), cc.2)))).flatten

/-- The character class `[0-9A-Za-z_{}]` of the token regular expression. -/
def isTokChar (c : Char) : Bool :=
  (decide ('0' ≤ c) && decide (c ≤ '9')) ||
  (decide ('A' ≤ c) && decide (c ≤ 'Z')) ||
  (decide ('a' ≤ c) && decide (c ≤ 'z')) ||
  c = '_' || c = '{' || c = '}'

/-- Greedy match of `[0-9A-Za-z_{}]+\)?` at the head of `l`
(the part of the token pattern after the optional opening parenthesis). -/
def matchCore (l : List Char) : Option (List Char) :=
  match l.takeWhile isTokChar, l.drop (l.takeWhile isTokChar).length with
  | [], _ => none
  | r :: rs, ')' :: _ => some (r :: rs ++ [')'])
  | r :: rs, _ => some (r :: rs)

/-- Greedy match of the token pattern `\(?[0-9A-Za-z_{}]+\)?` at the head
of `l`, including the backtracking Python `re` performs when the optional
`\(?` was consumed but the body then fails. -/
def matchAt (l : List Char) : Option (List Char) :=
  match l with
  | '(' :: rest =>
    (match matchCore rest with
     | some m => some ('(' :: m)
     | none => matchCore l)
  | _ => matchCore l

theorem matchCore_length_pos {l m : List Char} (h : matchCore l = some m) : 0 < m.length := by
  unfold matchCore at h
  split at h
  · cases h
  · cases h; simp
  · cases h; simp

theorem matchAt_length_pos {l m : List Char} (h : matchAt l = some m) : 0 < m.length := by
  unfold matchAt at h
  split at h
  · split at h
    · cases h; simp
    · exact matchCore_length_pos h
  · exact matchCore_length_pos h

/-- Fuel-based form of the per-line `re.finditer` scan (each step consumes
at least one character, so fuel `l.length` always suffices; the fuel makes
the recursion structural so that concrete runs reduce in the kernel). -/
def scanLineAux : Nat → List Char → Nat → List (List Char × Nat)
  | 0, _, _ => []
  | _ + 1, [], _ => []
  | fuel + 1, c :: rest, col =>
    match matchAt (c :: rest) with
    | some m => (m, col) :: scanLineAux fuel ((c :: rest).drop m.length) (col + m.length)
    | none => scanLineAux fuel rest (col + 1)

/-- The scan performed by `re.finditer` over one line: at each position try
the token pattern; on a match, emit `(text, column)` and resume after the
match, otherwise advance one character. -/
def scanLine (l : List Char) (col : Nat) : List (List Char × Nat) :=
  scanLineAux l.length l col

/-- Source `node_iter`: all tokens of the drawing, as
`(full match text, Point(match start column, row))`. -/
def node_iter (s : List Char) : List (List Char × Point) :=
  ((splitLines s).enum.map (fun rl =>
    (scanLine rl.2 0).map (fun tc => (tc.1, Point.mk (Int.ofNat tc.2) (Int.ofNat rl.1))))).flatten

/-- Source `char_map`: position of each character of `text`, starting at
`root_position` and advancing along the row. -/
def char_map (text : List Char) (root : Point) : List (Point × Char) :=
  text.enum.map (fun ic => (Point.mk (root.x + Int.ofNat ic.1) root.y, ic.2))

/-- Source `map_text_chars_to_text`: maps every character cell of each text
element to the text element itself. -/
def map_text_chars_to_text (tm : List (Point × List Char)) : List (Point × List Char) :=
  dictOfPairs ((tm.map (fun rt => (char_map rt.2 rt.1).map (fun pc => (pc.1, rt.2)))).flatten)

/-- The set of line-drawing glyphs, source constant `EDGE_CHARS`. -/
def EDGE_CHARS : List Char := ['\\', '-', '/', '|']

/-- Source constant `EDGE_CHAR_NEIGHBOURS`: for each glyph, the
`(trailing, leading)` pair of direction offsets.  The source dict is only
ever indexed with one of the four glyphs; other characters fall through to
the `'|'` entry here. -/
def edgeCharNeighbours (c : Char) : Point × Point :=
  if c = '-' then (⟨-1, 0⟩, ⟨1, 0⟩)
  else if c = '\\' then (⟨-1, -1⟩, ⟨1, 1⟩)
  else if c = '/' then (⟨1, -1⟩, ⟨-1, 1⟩)
  else (⟨0, -1⟩, ⟨0, 1⟩)

/-- The four maps built by the second pass of `graph_from_ascii`. -/
structure TokenMaps where
  node_chars : List (Point × Char)
  label_chars : List (Point × Char)
  nodes : List (Point × List Char)
  labels : List (Point × List Char)
deriving DecidableEq

/-- `ascii_label.startswith("(") and ascii_label.endswith(")")`. -/
def isLabelText (t : List Char) : Bool :=
  (t.headD ' ' = '(' : Bool) && (t.getLastD ' ' = ')' : Bool)

/-- One iteration of the second pass of `graph_from_ascii`: file the token
either as a label (cells into `label_chars`, stripped content into `labels`
at `root_position + Point(1, 0)`) or as a node. -/
def tokenStep (tm : TokenMaps) (t : List Char × Point) : TokenMaps :=
  let cmu := char_map t.1 t.2
  if isLabelText t.1 then
    { tm with
      label_chars := cmu.foldl (fun m pc => odInsert m pc.1 pc.2) tm.label_chars,
      labels := odInsert tm.labels (t.2.add ⟨1, 0⟩) (t.1.drop 1).dropLast }
  else
    { tm with
      node_chars := cmu.foldl (fun m pc => odInsert m pc.1 pc.2) tm.node_chars,
      nodes := odInsert tm.nodes t.2 t.1 }

/-- The second pass of `graph_from_ascii` over all scanned tokens. -/
def tokenMaps (s : List Char) : TokenMaps :=
  (node_iter s).foldl tokenStep ⟨[], [], [], []⟩

/-- First pass of `graph_from_ascii`: the positions of the four
line-drawing glyphs. -/
def edgeCharsRaw (s : List Char) : List (Point × Char) :=
  dictOfPairs ((char_iter s).filter (fun pc => EDGE_CHARS.contains pc.2))

/-- State of the label-patching loop.  `left` models the Python local
variable `left`, which is only (re)assigned inside the `'('` branch and is
read back, still holding its previous value, in the final `else` branch. -/
structure PatchState where
  edge_chars : List (Point × Char)
  left : Option Point
deriving DecidableEq

/-- One iteration of the third pass of `graph_from_ascii` (the label
patcher).  When `left` was never assigned the final branch would raise a
Python `NameError`; that case is unreachable because every label begins
with `'('`, and is modelled as a no-op. -/
def patchStep (st : PatchState) (pc : Point × Char) : PatchState :=
  let position := pc.1
  let above := position.add ⟨0, -1⟩
  let below := position.add ⟨0, 1⟩
  if pc.2 = '(' then
    let left := position.add ⟨-1, 0⟩
    if alookup st.edge_chars left = some '-' then
      ⟨odInsert st.edge_chars position '-', some left⟩
    else ⟨st.edge_chars, some left⟩
  else if pc.2 = ')' then
    let right := position.add ⟨1, 0⟩
    if alookup st.edge_chars right = some '-' then
      ⟨odInsert st.edge_chars position '-', st.left⟩
    else st
  else if alookup st.edge_chars above = some '|' && alookup st.edge_chars below = some '|' then
    ⟨odInsert st.edge_chars position '|', st.left⟩
  else
    match st.left with
    | some l =>
      if alookup st.edge_chars l = some '-' then ⟨odInsert st.edge_chars position '-', st.left⟩
      else st
    | none => st

/-- The edge-character map after the label patcher ran over `label_chars`. -/
def patchedEdgeChars (s : List Char) : List (Point × Char) :=
  ((tokenMaps s).label_chars.foldl patchStep ⟨edgeCharsRaw s, none⟩).edge_chars

/-- Row-major weak order on edge-character entries, keyed on the position,
used to model `sorted(edge_chars.items())` (keys are pairwise distinct, so
only the `Point` key participates in Python's tuple comparison). -/
def ptKeyLE (a b : Point × Char) : Prop := Point.lt a.1 b.1 = true ∨ a.1 = b.1

instance : DecidableRel ptKeyLE := fun a b => by
  unfold ptKeyLE
  infer_instance

/-- `edge_chars = OrderedDict(sorted(edge_chars.items()))`: the patched map
in row-major order.  The keys are distinct and `ptKeyLE` is a total order
on them, so any sorting algorithm yields Python's result. -/
def sortedEdgeChars (s : List Char) : List (Point × Char) :=
  List.insertionSort ptKeyLE (patchedEdgeChars s)

/-- One tracked edge: the Python dict `dict(points=[...], nodes=[...])`
shared between `edges` and `edge_char_to_edge_map`. -/
structure EdgeData where
  points : List Point
  nodes : List (List Char)
deriving DecidableEq

/-- State of the tracing loop: `edge_char_to_edge_map` holds indices into
the `edges` list (modelling Python's shared mutable dicts). -/
structure TraceState where
  edgeMap : List (Point × Nat)
  edges : List EdgeData
deriving DecidableEq

/-- Mutate the edge with index `i` (a shared-dict update in the source). -/
def updateAt (l : List EdgeData) (i : Nat) (f : EdgeData → EdgeData) : List EdgeData :=
  l.set i (f (l.getD i ⟨[], []⟩))

/-- `edge_char_to_edge_map[p] = E; E["points"].append(p)` for the edge
with index `i`: claim position `p` for that edge. -/
def claimPos (st : TraceState) (i : Nat) (p : Point) : TraceState :=
  ⟨odInsert st.edgeMap p i,
   updateAt st.edges i (fun e => { e with points := e.points ++ [p] })⟩

/-- `edge_char_to_edge_map[p] = dict(points=[p], nodes=[]); edges.append(...)`. -/
def newEdgeAt (st : TraceState) (p : Point) : TraceState :=
  ⟨odInsert st.edgeMap p st.edges.length, st.edges ++ [⟨[p], []⟩]⟩

/-- One iteration of the edge-tracing loop of `graph_from_ascii`. -/
def traceStep (edge_chars node_chars : List (Point × Char))
    (node_char_to_node : List (Point × List Char)) (st : TraceState) (pc : Point × Char) :
    TraceState :=
  let pos := pc.1
  let offs := edgeCharNeighbours pc.2
  let neighbor := pos.add offs.1
  let neighbor_2 := pos.add offs.2
  let st1 :=
    match alookup st.edgeMap pos with
    | some _ => st
    | none =>
      let withPos : TraceState × Nat :=
        match alookup st.edgeMap neighbor with
        | some i => (claimPos st i pos, i)
        | none => (newEdgeAt st pos, st.edges.length)
      if (alookup withPos.1.edgeMap neighbor_2).isNone &&
          (alookup edge_chars neighbor_2).isSome then
        claimPos withPos.1 withPos.2 neighbor_2
      else withPos.1
  let neighboring_nodes :=
    [offs.1, offs.2].filterMap (fun off =>
      if (alookup node_chars (pos.add off)).isSome then
        some ((alookup node_char_to_node (pos.add off)).getD [])
      else none)
  match alookup st1.edgeMap pos with
  | some i =>
    { st1 with
      edges := updateAt st1.edges i (fun e => { e with nodes := e.nodes ++ neighboring_nodes }) }
  | none => st1

/-- The whole tracing loop of `graph_from_ascii` over the sorted patched
edge-character map. -/
def traceResult (s : List Char) : TraceState :=
  let ec := sortedEdgeChars s
  let tm := tokenMaps s
  ec.foldl (traceStep ec tm.node_chars (map_text_chars_to_text tm.nodes)) ⟨[], []⟩

/-- The two exception classes, carrying the data the source formats into
the message: `len(edge['nodes'])` and `edge['points'][0]`. -/
inductive ParseError where
  | tooMany (count : Nat) (start : Point)
  | tooFew (count : Nat) (start : Point)
deriving DecidableEq

/-- Per-edge attribute record set by `networkx.set_edge_attributes`. -/
structure EdgeAttrs where
  length : Option Nat
  label : Option (List Char)
deriving DecidableEq

/-- The produced `networkx.OrderedGraph`: node list (name, optional
`position` attribute) and edge list (endpoint pair as first added, plus
attributes); the graph is undirected, so an edge key matches in either
orientation. -/
structure AGraph where
  nodes : List (List Char × Option Point)
  edges : List ((List Char × List Char) × EdgeAttrs)
deriving DecidableEq

/-- `add_nodes_from` semantics for a single node: attributes of an
existing node are updated in place, a new node is appended. -/
def setNodePos : List (List Char × Option Point) → List Char → Point →
    List (List Char × Option Point)
  | [], name, p => [(name, some p)]
  | (n, q) :: t, name, p =>
    if n = name then (n, some p) :: t else (n, q) :: setNodePos t name p

/-- `ascii_graph.add_nodes_from((node, {"position": position}) ...)`. -/
def addNodesFrom (g : AGraph) (nm : List (Point × List Char)) : AGraph :=
  { g with nodes := nm.foldl (fun acc pn => setNodePos acc pn.2 pn.1) g.nodes }

/-- `add_edge` adds missing endpoints as attribute-less nodes. -/
def ensureNode (ns : List (List Char × Option Point)) (name : List Char) :
    List (List Char × Option Point) :=
  if (ns.find? (fun np => np.1 = name)).isSome then ns else ns ++ [(name, none)]

/-- Does the stored undirected edge key match the pair `(u, v)`? -/
def edgeKeyMatches (k : List Char × List Char) (u v : List Char) : Bool :=
  ((k.1 = u : Bool) && (k.2 = v : Bool)) || ((k.1 = v : Bool) && (k.2 = u : Bool))

/-- `ascii_graph.add_edge(u, v)`: endpoints are ensured as nodes; a new
undirected edge is stored under the pair as given, an existing one is
left unchanged. -/
def graphAddEdge (g : AGraph) (u v : List Char) : AGraph :=
  let ns := ensureNode (ensureNode g.nodes u) v
  if (g.edges.find? (fun e => edgeKeyMatches e.1 u v)).isSome then { nodes := ns, edges := g.edges }
  else { nodes := ns, edges := g.edges ++ [((u, v), ⟨none, none⟩)] }

/-- `set_edge_attributes(..., name="length", ...)` for one key. -/
def setEdgeLength : List ((List Char × List Char) × EdgeAttrs) → List Char × List Char → Nat →
    List ((List Char × List Char) × EdgeAttrs)
  | [], _, _ => []
  | (k, a) :: t, key, v =>
    if edgeKeyMatches k key.1 key.2 then (k, { a with length := some v }) :: t
    else (k, a) :: setEdgeLength t key v

/-- `set_edge_attributes(..., name="label", ...)` for one key. -/
def setEdgeLabel : List ((List Char × List Char) × EdgeAttrs) → List Char × List Char →
    List Char → List ((List Char × List Char) × EdgeAttrs)
  | [], _, _ => []
  | (k, a) :: t, key, v =>
    if edgeKeyMatches k key.1 key.2 then (k, { a with label := some v }) :: t
    else (k, a) :: setEdgeLabel t key v

/-- The final loop of `graph_from_ascii`: raise on an edge with more or
fewer than two collected node names, otherwise `add_edge(*edge['nodes'])`. -/
def addEdgesChecked : AGraph → List EdgeData → Except ParseError AGraph
  | g, [] => Except.ok g
  | g, e :: t =>
    if 2 < e.nodes.length then
      Except.error (ParseError.tooMany e.nodes.length (e.points.headD ⟨0, 0⟩))
    else if e.nodes.length < 2 then
      Except.error (ParseError.tooFew e.nodes.length (e.points.headD ⟨0, 0⟩))
    else addEdgesChecked (graphAddEdge g (e.nodes.headD []) (e.nodes.getD 1 [])) t

/-- `tuple(edge["nodes"])` for a validated edge (exactly two names). -/
def pairOf (e : EdgeData) : List Char × List Char := (e.nodes.getD 0 [], e.nodes.getD 1 [])

/-- The `length` attribute dict
`{tuple(edge["nodes"]): len(edge["points"]) for edge in edges if edge["nodes"]}`. -/
def lengthValues (edges : List EdgeData) : List ((List Char × List Char) × Nat) :=
  dictOfPairs ((edges.filter (fun e => !e.nodes.isEmpty)).map (fun e => (pairOf e, e.points.length)))

/-- The `label` attribute dict
`{tuple(edge_char_to_edge_map[pos]["nodes"]): label for pos, label in
label_char_to_label.items() if pos in edge_char_to_edge_map}`. -/
def labelValues (edgeMap : List (Point × Nat)) (edges : List EdgeData)
    (label_char_to_label : List (Point × List Char)) :
    List ((List Char × List Char) × List Char) :=
  dictOfPairs (label_char_to_label.filterMap (fun pl =>
    match alookup edgeMap pl.1 with
    | some i => some (pairOf (edges.getD i ⟨[], []⟩), pl.2)
    | none => none))

/-- The graph holding all scanned nodes, before any edges are added. -/
def baseGraph (s : List Char) : AGraph := addNodesFrom ⟨[], []⟩ (tokenMaps s).nodes

/-- Application of the two `set_edge_attributes` calls to the validated
graph. -/
def attrGraph (s : List Char) (g1 : AGraph) : AGraph :=
  let t := traceResult s
  let g2 : AGraph :=
    { g1 with
      edges := (lengthValues t.edges).foldl (fun es kv => setEdgeLength es kv.1 kv.2) g1.edges }
  { g2 with
    edges := (labelValues t.edgeMap t.edges
        (map_text_chars_to_text (tokenMaps s).labels)).foldl
      (fun es kv => setEdgeLabel es kv.1 kv.2) g2.edges }

/-- Embedding of the source entry point `graph_from_ascii`. -/
def graph_from_ascii (ns : String) : Except ParseError AGraph :=
  match addEdgesChecked (baseGraph ns.toList) (traceResult ns.toList).edges with
  | Except.error e => Except.error e
  | Except.ok g1 => Except.ok (attrGraph ns.toList g1)

/-- Edge-attribute lookup between two node names, in either orientation. -/
def AGraph.findEdge (g : AGraph) (u v : List Char) : Option EdgeAttrs :=
  (g.edges.find? (fun e => edgeKeyMatches e.1 u v)).map Prod.snd

/-! ### Definitions following the specification's words
These model the behaviour the spec describes, to be compared against the
embedded source; they are used only to state corrections. -/

/-- The eight surrounding offsets (spec §4.5 step 2). -/
def ALL_DIRS : List Point :=
  [⟨-1, -1⟩, ⟨0, -1⟩, ⟨1, -1⟩, ⟨-1, 0⟩, ⟨1, 0⟩, ⟨-1, 1⟩, ⟨0, 1⟩, ⟨1, 1⟩]

/-- Spec §4.5 step 1 (claim C2's wording): the directional neighbours of an
edge-character position — cells at the glyph's two offsets that are present
in the edge-character map or in the node-character map. -/
def specDirectionalNeighbours (ec nc : List (Point × Char)) (p : Point) : List Point :=
  match alookup ec p with
  | none => []
  | some g =>
    let offs := edgeCharNeighbours g
    [p.add offs.1, p.add offs.2].filter
      (fun q => (alookup ec q).isSome || (alookup nc q).isSome)

/-- Spec §4.5 step 2 (claim C2's wording): the reverse/abutting neighbours
— surrounding edge characters whose own directional rule points back at `p`. -/
def specAbuttingNeighbours (ec : List (Point × Char)) (p : Point) : List Point :=
  ALL_DIRS.filterMap (fun off =>
    let q := p.add off
    match alookup ec q with
    | none => none
    | some g' =>
      let offs := edgeCharNeighbours g'
      if q.add offs.1 = p ∨ q.add offs.2 = p then some q else none)

/-- Spec §4.5 step 3 (claim C2's wording): the union of the two neighbour
sets of an edge-character position. -/
def specNeighbourSet (ec nc : List (Point × Char)) (p : Point) : List Point :=
  (specDirectionalNeighbours ec nc p ++ specAbuttingNeighbours ec p).dedup

/-- Membership of `[0-9A-Za-z_{}]+\)?` (claim C8's grammar, after the
optional opening parenthesis): a non-empty run of token characters
followed by nothing or by a single closing parenthesis. -/
def bodyOpt (l : List Char) : Bool :=
  !(l.takeWhile isTokChar).isEmpty &&
    ((l.drop (l.takeWhile isTokChar).length).isEmpty ||
      l.drop (l.takeWhile isTokChar).length == [')'])

/-- Membership of the full token pattern `\(?[0-9A-Za-z_{}]+\)?`. -/
def isTokMatch (t : List Char) : Bool :=
  bodyOpt t || ((t.headD ' ' = '(' : Bool) && bodyOpt (t.drop 1))

/-- The greatest `n ≤ k` such that the length-`n` prefix of `l` matches
the token pattern (the specification's "maximal match"). -/
def maxMatchLenAux : Nat → List Char → Option Nat
  | 0, l => if isTokMatch (l.take 0) then some 0 else none
  | n + 1, l => if isTokMatch (l.take (n + 1)) then some (n + 1) else maxMatchLenAux n l

/-- The maximal-munch match length at the head of `l`, if any. -/
def maxMatchLen (l : List Char) : Option Nat := maxMatchLenAux l.length l

/-- The scan claim C8 describes: left to right, take the maximal match at
each position, non-overlapping (resume right after each match). -/
def specScanAux : Nat → List Char → Nat → List (List Char × Nat)
  | 0, _, _ => []
  | _ + 1, [], _ => []
  | fuel + 1, c :: rest, col =>
    match maxMatchLen (c :: rest) with
    | some n => ((c :: rest).take n, col) :: specScanAux fuel ((c :: rest).drop n) (col + n)
    | none => specScanAux fuel rest (col + 1)

/-- The per-line scan of claim C8. -/
def specScanLine (l : List Char) (col : Nat) : List (List Char × Nat) :=
  specScanAux l.length l col

/-- The token stream of claim C8: per row, the maximal non-overlapping
matches in left-to-right order, each with its start column and row. -/
def specNodeIter (s : List Char) : List (List Char × Point) :=
  ((splitLines s).enum.map (fun rl =>
    (specScanLine rl.2 0).map (fun tc => (tc.1, Point.mk (Int.ofNat tc.2) (Int.ofNat rl.1))))).flatten

/-- Lexicographic order on names, i.e. Python string `<`, used to state
claim C3's canonicalization property. -/
def strLt : List Char → List Char → Bool
  | [], [] => false
  | [], _ :: _ => true
  | _ :: _, [] => false
  | a :: as, b :: bs => if a = b then strLt as bs else decide (a < b)

/-- The label-patching rule exactly as claim C6 words it: the final case
tests the cell directly to the left of the current position (whereas the
source reuses the stale `left` variable of the last `'('`). -/
def claimPatchStep (ec : List (Point × Char)) (pc : Point × Char) : List (Point × Char) :=
  let position := pc.1
  let above := position.add ⟨0, -1⟩
  let below := position.add ⟨0, 1⟩
  let left := position.add ⟨-1, 0⟩
  let right := position.add ⟨1, 0⟩
  if pc.2 = '(' then
    (if alookup ec left = some '-' then odInsert ec position '-' else ec)
  else if pc.2 = ')' then
    (if alookup ec right = some '-' then odInsert ec position '-' else ec)
  else if alookup ec above = some '|' && alookup ec below = some '|' then
    odInsert ec position '|'
  else if alookup ec left = some '-' then odInsert ec position '-'
  else ec

/-- The patch pass as claim C6 describes it. -/
def claimPatch (ec : List (Point × Char)) (lcs : List (Point × Char)) : List (Point × Char) :=
  lcs.foldl claimPatchStep ec

/-- Decidable equality for parse results (needed to settle concrete
scenarios by evaluation). -/
instance {ε α : Type} [DecidableEq ε] [DecidableEq α] : DecidableEq (Except ε α) := fun a b => by
  cases a <;> cases b
  case error.error e f => exact decidable_of_iff (e = f) (by simp)
  case error.ok => exact Decidable.isFalse (by simp)
  case ok.error => exact Decidable.isFalse (by simp)
  case ok.ok x y => exact decidable_of_iff (x = y) (by simp)

/-! ### Generic association-list and list-update lemmas -/

theorem alookup_odInsert_self {κ α : Type} [DecidableEq κ] (m : List (κ × α)) (k : κ) (v : α) :
    alookup (odInsert m k v) k = some v := by
  induction m with
  | nil => simp [odInsert, alookup]
  | cons kv t ih =>
    obtain ⟨k₀, v₀⟩ := kv
    by_cases h0 : k₀ = k
    · subst h0
      simp [odInsert, alookup]
    · simp [odInsert, alookup, h0, ih]

theorem alookup_odInsert_ne {κ α : Type} [DecidableEq κ] (m : List (κ × α)) (k k' : κ) (v : α)
    (h : k ≠ k') : alookup (odInsert m k v) k' = alookup m k' := by
  induction m with
  | nil => simp [odInsert, alookup, h]
  | cons kv t ih =>
    obtain ⟨k₀, v₀⟩ := kv
    by_cases h0 : k₀ = k
    · subst h0
      simp [odInsert, alookup, h]
    · by_cases h1 : k₀ = k'
      · subst h1
        simp [odInsert, alookup, h0]
      · simp [odInsert, alookup, h0, h1, ih]

theorem odInsert_of_none {κ α : Type} [DecidableEq κ] (m : List (κ × α)) (k : κ) (v : α)
    (h : alookup m k = none) : odInsert m k v = m ++ [(k, v)] := by
  induction m with
  | nil => rfl
  | cons kv t ih =>
    obtain ⟨k₀, v₀⟩ := kv
    by_cases h0 : k₀ = k
    · subst h0
      simp [alookup] at h
    · simp only [alookup, if_neg h0] at h
      simp [odInsert, h0, ih h]

theorem alookup_none_not_mem {κ α : Type} [DecidableEq κ] (m : List (κ × α)) (k : κ)
    (h : alookup m k = none) : k ∉ m.map Prod.fst := by
  induction m with
  | nil => simp
  | cons kv t ih =>
    obtain ⟨k₀, v₀⟩ := kv
    by_cases h0 : k₀ = k
    · subst h0
      simp [alookup] at h
    · simp only [alookup, if_neg h0] at h
      simp only [List.map_cons, List.mem_cons]
      rintro (hc | hc)
      · exact h0 hc.symm
      · exact ih h hc

theorem mem_alookup_isSome {κ α : Type} [DecidableEq κ] (m : List (κ × α)) (k : κ)
    (h : k ∈ m.map Prod.fst) : (alookup m k).isSome := by
  induction m with
  | nil => simp at h
  | cons kv t ih =>
    obtain ⟨k₀, v₀⟩ := kv
    by_cases h0 : k₀ = k
    · simp [alookup, h0]
    · simp only [List.map_cons, List.mem_cons] at h
      rcases h with h | h
      · exact absurd h.symm h0
      · simp only [alookup, if_neg h0]
        exact ih h

theorem keys_odInsert {κ α : Type} [DecidableEq κ] (m : List (κ × α)) (k : κ) (v : α) :
    (odInsert m k v).map Prod.fst =
      if (alookup m k).isNone then m.map Prod.fst ++ [k] else m.map Prod.fst := by
  induction m with
  | nil => simp [odInsert, alookup]
  | cons kv t ih =>
    obtain ⟨k₀, v₀⟩ := kv
    by_cases h0 : k₀ = k
    · subst h0
      simp [odInsert, alookup]
    · simp only [odInsert, if_neg h0, alookup, List.map_cons, ih]
      split <;> simp

theorem nodup_keys_odInsert {κ α : Type} [DecidableEq κ] (m : List (κ × α)) (k : κ) (v : α)
    (hn : (m.map Prod.fst).Nodup) : ((odInsert m k v).map Prod.fst).Nodup := by
  rw [keys_odInsert]
  split
  · next h =>
    rw [List.nodup_append]
    exact ⟨hn, List.nodup_singleton _, by
      intro a ha hb
      rw [List.mem_singleton] at hb
      subst hb
      exact alookup_none_not_mem _ _ (Option.isNone_iff_eq_none.mp h) ha⟩
  · exact hn

theorem length_odInsert_of_none {κ α : Type} [DecidableEq κ] (m : List (κ × α)) (k : κ) (v : α)
    (h : alookup m k = none) : (odInsert m k v).length = m.length + 1 := by
  rw [odInsert_of_none _ _ _ h]
  simp

theorem getD_set_self {α : Type} (l : List α) (i : Nat) (a d : α) (h : i < l.length) :
    (l.set i a).getD i d = a := by
  induction l generalizing i with
  | nil => simp at h
  | cons x t ih =>
    cases i with
    | zero => rfl
    | succ i => exact ih i (by simpa using h)

theorem getD_set_ne {α : Type} (l : List α) (i j : Nat) (a d : α) (h : i ≠ j) :
    (l.set i a).getD j d = l.getD j d := by
  induction l generalizing i j with
  | nil => simp
  | cons x t ih =>
    cases i with
    | zero =>
      cases j with
      | zero => exact absurd rfl h
      | succ j => rfl
    | succ i =>
      cases j with
      | zero => rfl
      | succ j => exact ih i j (fun hc => h (by rw [hc]))

theorem getD_append_left {α : Type} (l₁ l₂ : List α) (j : Nat) (d : α) (h : j < l₁.length) :
    (l₁ ++ l₂).getD j d = l₁.getD j d := by
  induction l₁ generalizing j with
  | nil => simp at h
  | cons x t ih =>
    cases j with
    | zero => rfl
    | succ j => exact ih j (by simpa using h)

theorem getD_append_len {α : Type} (l₁ : List α) (x d : α) :
    (l₁ ++ [x]).getD l₁.length d = x := by
  induction l₁ with
  | nil => rfl
  | cons y t ih => exact ih

theorem getD_of_le {α : Type} (l : List α) (j : Nat) (d : α) (h : l.length ≤ j) :
    l.getD j d = d := by
  induction l generalizing j with
  | nil => cases j <;> rfl
  | cons x t ih =>
    cases j with
    | zero => simp at h
    | succ j => exact ih j (by simpa using h)

theorem sum_map_set {α : Type} (g : α → Nat) (l : List α) (i : Nat) (a d : α)
    (h : i < l.length) :
    ((l.set i a).map g).sum + g (l.getD i d) = (l.map g).sum + g a := by
  induction l generalizing i with
  | nil => simp at h
  | cons x t ih =>
    cases i with
    | zero =>
      simp only [List.set, List.getD_cons_zero, List.map_cons, List.sum_cons]
      omega
    | succ i =>
      simp only [List.set, List.getD_cons_succ, List.map_cons, List.sum_cons]
      have := ih i (by simpa using h)
      omega

theorem enumFrom_succ_char (cs : List Char) (px py : Int) : ∀ k : Nat,
    (List.enumFrom (k + 1) cs).map (fun ic => (Point.mk (px + Int.ofNat ic.1) py, ic.2)) =
      (List.enumFrom k cs).map (fun ic => (Point.mk (px + 1 + Int.ofNat ic.1) py, ic.2)) := by
  induction cs with
  | nil => intro k; simp
  | cons c cs ih =>
    intro k
    rw [List.enumFrom_cons, List.enumFrom_cons, List.map_cons, List.map_cons]
    have hx : px + Int.ofNat (k + 1) = px + 1 + Int.ofNat k := by
      simp only [Int.ofNat_eq_coe]
      push_cast
      ring
    rw [hx]
    rw [ih (k + 1)]

/-- `char_map` unrolled one cell: the head character sits at the root and
the rest at the root shifted one column right. -/
theorem char_map_cons (c : Char) (cs : List Char) (root : Point) :
    char_map (c :: cs) root = (root, c) :: char_map cs (root.add ⟨1, 0⟩) := by
  obtain ⟨rx, ry⟩ := root
  unfold char_map
  rw [List.enum_cons, List.map_cons]
  dsimp only [Point.add]
  rw [add_zero]
  congr 1
  · simp
  · exact enumFrom_succ_char cs rx ry 0

theorem char_map_snd_mem (text : List Char) (root : Point) (pc : Point × Char)
    (h : pc ∈ char_map text root) : pc.2 ∈ text := by
  induction text generalizing root with
  | nil => simp [char_map] at h
  | cons c cs ih =>
    rw [char_map_cons] at h
    rcases List.mem_cons.mp h with h | h
    · subst h
      exact List.mem_cons_self _ _
    · exact List.mem_cons_of_mem _ (ih _ h)

/-- Claim-side notion for C10: the root position of the occurrence of
`name` scanned last (the `nodes` map is in row-major scan order). -/
def lastPos : List (Point × List Char) → List Char → Option Point
  | [], _ => none
  | pn :: t, name =>
    match lastPos t name with
    | some q => some q
    | none => if pn.2 = name then some pn.1 else none

/-- Lookup of a node's attribute (`position`, when set) by name in the
produced graph's node list. -/
def lookupName (ns : List (List Char × Option Point)) (name : List Char) :
    Option (Option Point) :=
  (ns.find? (fun np => decide (np.1 = name))).map Prod.snd

theorem lookupName_setNodePos (acc : List (List Char × Option Point)) (n : List Char)
    (p : Point) (name : List Char) :
    lookupName (setNodePos acc n p) name =
      if name = n then some (some p) else lookupName acc name := by
  induction acc with
  | nil =>
    by_cases h : name = n
    · subst h
      simp [setNodePos, lookupName, List.find?]
    · have hd : decide (n = name) = false := decide_eq_false (fun hc => h hc.symm)
      simp [setNodePos, lookupName, List.find?, hd, h]
  | cons hd t ih =>
    obtain ⟨m, q⟩ := hd
    simp only [setNodePos]
    by_cases hmn : m = n
    · subst hmn
      rw [if_pos rfl]
      by_cases hnm : name = m
      · subst hnm
        simp [lookupName, List.find?]
      · have hd : decide (m = name) = false := decide_eq_false (fun hc => hnm hc.symm)
        simp [lookupName, List.find?, hd, hnm]
    · rw [if_neg hmn]
      by_cases hnm : name = m
      · subst hnm
        have h2 : ¬(name = n) := fun hc => hmn (by rw [hc])
        simp [lookupName, List.find?, h2]
      · have hd : decide (m = name) = false := decide_eq_false (fun hc => hnm hc.symm)
        simp only [lookupName, List.find?, hd] at ih ⊢
        exact ih

theorem lookupName_addNodesFold (nm : List (Point × List Char))
    (acc : List (List Char × Option Point)) (name : List Char) :
    lookupName (nm.foldl (fun a pn => setNodePos a pn.2 pn.1) acc) name =
      (match lastPos nm name with
       | some p => some (some p)
       | none => lookupName acc name) := by
  induction nm generalizing acc with
  | nil => rfl
  | cons pn t ih =>
    simp only [List.foldl_cons, lastPos]
    rw [ih]
    rcases lastPos t name with _ | q
    · simp only []
      rw [lookupName_setNodePos]
      by_cases h : name = pn.2
      · rw [if_pos h, if_pos (h ▸ rfl : pn.2 = name)]
      · rw [if_neg h, if_neg (fun hc : pn.2 = name => h hc.symm)]
    · rfl

theorem keys_setNodePos (acc : List (List Char × Option Point)) (n : List Char) (p : Point) :
    (setNodePos acc n p).map Prod.fst =
      if n ∈ acc.map Prod.fst then acc.map Prod.fst else acc.map Prod.fst ++ [n] := by
  induction acc with
  | nil => simp [setNodePos]
  | cons hd t ih =>
    obtain ⟨m, q⟩ := hd
    simp only [setNodePos]
    by_cases hmn : m = n
    · subst hmn
      simp
    · rw [if_neg hmn]
      simp only [List.map_cons]
      rw [ih]
      by_cases hn : n ∈ t.map Prod.fst
      · rw [if_pos hn, if_pos (List.mem_cons_of_mem _ hn)]
      · have hcond : n ∉ m :: List.map Prod.fst t := by
          intro h
          rcases List.mem_cons.mp h with h | h
          · exact hmn h.symm
          · exact hn h
        rw [if_neg hn, if_neg hcond]
        simp

theorem nodup_setNodePos (acc : List (List Char × Option Point)) (n : List Char) (p : Point)
    (h : (acc.map Prod.fst).Nodup) : ((setNodePos acc n p).map Prod.fst).Nodup := by
  rw [keys_setNodePos]
  by_cases hn : n ∈ acc.map Prod.fst
  · rwa [if_pos hn]
  · rw [if_neg hn, List.nodup_append]
    refine ⟨h, List.nodup_singleton n, ?_⟩
    intro a ha hb
    rw [List.mem_singleton] at hb
    subst hb
    exact hn ha

theorem nodup_addNodesFold (nm : List (Point × List Char))
    (acc : List (List Char × Option Point)) (h : (acc.map Prod.fst).Nodup) :
    ((nm.foldl (fun a pn => setNodePos a pn.2 pn.1) acc).map Prod.fst).Nodup := by
  induction nm generalizing acc with
  | nil => exact h
  | cons pn t ih => exact ih _ (nodup_setNodePos _ _ _ h)

theorem lookupName_ensureNode (ns : List (List Char × Option Point)) (m name : List Char)
    (v : Option Point) (h : lookupName ns name = some v) :
    lookupName (ensureNode ns m) name = some v := by
  unfold ensureNode
  split
  · exact h
  · unfold lookupName at h ⊢
    rcases hf : ns.find? (fun np => decide (np.1 = name)) with _ | e
    · rw [hf] at h; cases h
    · rw [List.find?_append, hf]
      rw [hf] at h
      exact h

theorem nodup_ensureNode (ns : List (List Char × Option Point)) (m : List Char)
    (h : (ns.map Prod.fst).Nodup) : ((ensureNode ns m).map Prod.fst).Nodup := by
  unfold ensureNode
  split
  · exact h
  · rename_i hnone
    have hm : m ∉ ns.map Prod.fst := by
      intro hc
      obtain ⟨⟨a, b⟩, hab, hfst⟩ := List.mem_map.mp hc
      have : (ns.find? (fun np => decide (np.1 = m))).isSome := by
        rw [List.find?_isSome]
        exact ⟨(a, b), hab, by simp only [decide_eq_true_eq]; exact hfst⟩
      exact hnone this
    rw [List.map_append, List.nodup_append]
    refine ⟨h, by simp, ?_⟩
    intro a ha hb
    simp only [List.map_cons, List.map_nil, List.mem_singleton] at hb
    subst hb
    exact hm ha

theorem graphAddEdge_nodes (g : AGraph) (u v : List Char) :
    (graphAddEdge g u v).nodes = ensureNode (ensureNode g.nodes u) v := by
  unfold graphAddEdge
  split <;> rfl

theorem addEdgesChecked_lookupName (edges : List EdgeData) (g g' : AGraph)
    (name : List Char) (v : Option Point) (hok : addEdgesChecked g edges = Except.ok g')
    (h : lookupName g.nodes name = some v) : lookupName g'.nodes name = some v := by
  induction edges generalizing g with
  | nil =>
    cases hok
    exact h
  | cons e t ih =>
    simp only [addEdgesChecked] at hok
    split at hok
    · cases hok
    · split at hok
      · cases hok
      · refine ih _ hok ?_
        rw [graphAddEdge_nodes]
        exact lookupName_ensureNode _ _ _ _ (lookupName_ensureNode _ _ _ _ h)

theorem addEdgesChecked_nodup (edges : List EdgeData) (g g' : AGraph)
    (hok : addEdgesChecked g edges = Except.ok g') (h : (g.nodes.map Prod.fst).Nodup) :
    (g'.nodes.map Prod.fst).Nodup := by
  induction edges generalizing g with
  | nil =>
    cases hok
    exact h
  | cons e t ih =>
    simp only [addEdgesChecked] at hok
    split at hok
    · cases hok
    · split at hok
      · cases hok
      · refine ih _ hok ?_
        rw [graphAddEdge_nodes]
        exact nodup_ensureNode _ _ (nodup_ensureNode _ _ h)

/-! ### Claim theorems -/

/-- C9: for all Points, `a < b` iff `a.y < b.y` or (`a.y = b.y` and
`a.x < b.x`) — a strict row-major total order (irreflexive, trichotomous);
addition and subtraction are componentwise new points; equality is
structural. -/
theorem c9_point_ops (a b : Point) :
    (Point.lt a b = true ↔ (a.y < b.y ∨ (a.y = b.y ∧ a.x < b.x))) ∧
    a.add b = ⟨a.x + b.x, a.y + b.y⟩ ∧
    a.sub b = ⟨a.x - b.x, a.y - b.y⟩ ∧
    (a = b ↔ (a.x = b.x ∧ a.y = b.y)) ∧
    (Point.lt a b = true ∨ a = b ∨ Point.lt b a = true) ∧
    ¬Point.lt a a = true := by
  obtain ⟨ax, ay⟩ := a
  obtain ⟨bx, by'⟩ := b
  refine ⟨?_, rfl, rfl, ?_, ?_, ?_⟩
  · simp only [Point.lt, Bool.or_eq_true, Bool.and_eq_true, Bool.not_eq_true',
      decide_eq_true_eq, decide_eq_false_iff_not]
    omega
  · simp only [Point.mk.injEq]
  · simp only [Point.lt, Point.mk.injEq, Bool.or_eq_true, Bool.and_eq_true, Bool.not_eq_true',
      decide_eq_true_eq, decide_eq_false_iff_not]
    omega
  · simp only [Point.lt, Bool.or_eq_true, Bool.and_eq_true, Bool.not_eq_true',
      decide_eq_true_eq, decide_eq_false_iff_not]
    omega

/-- C1 (Scenario B): parsing `"n1--(cost)--n2"` yields exactly the nodes
`n1` (at column 0) and `n2` (at column 12) and exactly one edge
`(n1, n2)` with label `"cost"` and length 10 (columns 2–11 of row 0:
four drawn dashes plus the six patched cells under `(cost)`). -/
theorem c1_scenario_b :
    graph_from_ascii "n1--(cost)--n2" =
      Except.ok
        ⟨[(['n', '1'], some ⟨0, 0⟩), (['n', '2'], some ⟨12, 0⟩)],
         [((['n', '1'], ['n', '2']), ⟨some 10, some ['c', 'o', 's', 't']⟩)]⟩ := by
  decide

/-- C5, counterexample: the three-row L-shaped drawing below (row 0:
`n1` then two dashes then a slash; row 1: three spaces then a slash;
row 2: two spaces then `n2`) connects `n1` to `n2` by a `-` segment
meeting a `/` segment, squarely inside the claim's family, yet the
parse raises `TooFewNodesOnEdge` carrying count 1 and `(2,0)`: the dash
chain becomes one incomplete edge holding only `n1` and the slash cells
a second one holding only `n2` — the `-` at `(3,0)` was pre-claimed by
the lookahead, so the merge step at the corner never runs and the two
chains are never joined (this source variant has no abutting-neighbour
pass). -/
theorem c5_universal_cex :
    graph_from_ascii "n1--/\n   /\n  n2" =
      Except.error (ParseError.tooFew 1 ⟨2, 0⟩) ∧
    (traceResult "n1--/\n   /\n  n2".toList).edges =
      [⟨[⟨2, 0⟩, ⟨3, 0⟩], [['n', '1']]⟩, ⟨[⟨4, 0⟩, ⟨3, 1⟩], [['n', '2']]⟩] := by
  constructor
  · decide
  · decide

/-- C5 as amended: corner routing is partial in this source variant (it
has no abutting-neighbour pass).  An L-shaped diagram yields a single
edge whose length is the total count of drawn glyphs only when the
row-major scan claims the corner cell through the one-step lookahead
before the adjoining segment is visited — as for a single `\` meeting a
`-` run (length 5) or a `/` bend whose upper glyph is scanned first
(length 4).  L-shapes where joining would have to merge two separately
started chains — a `-` run meeting a `/` that continues downward
(the counterexample), or a `\` diagonal of length two or more meeting a
`-` run — raise `TooFewNodesOnEdge` instead. -/
theorem c5_corner_routing_amended :
    (graph_from_ascii "n1\n  \\\n   ----n2").map
        (fun g => (g.edges.length, g.findEdge ['n', '1'] ['n', '2'])) =
      Except.ok (1, some ⟨some 5, none⟩) ∧
    (graph_from_ascii "      /--n2\n     /\n   n1").map
        (fun g => (g.edges.length, g.findEdge ['n', '1'] ['n', '2'])) =
      Except.ok (1, some ⟨some 4, none⟩) ∧
    graph_from_ascii "n1\n  \\\n   \\\n    ----n2" =
      Except.error (ParseError.tooFew 1 ⟨2, 1⟩) := by
  refine ⟨?_, ?_, ?_⟩
  · decide
  · decide
  · decide

/-- C2, counterexample: in `"n1---"` the edge-character positions are
columns 2–4; the only position whose spec neighbour set (directional plus
abutting) has fewer than two members is the dangling end `(4,0)`, yet the
parse raises `TooFewNodesOnEdge` carrying the edge's node count and its
first traced position `(2,0)` — not the violating position, its glyph, or
a rendered snippet.  The check also happens per traced edge after the
walk, not immediately at a violating position. -/
theorem c2_neighbour_rule_cex :
    (sortedEdgeChars "n1---".toList).map Prod.fst = [⟨2, 0⟩, ⟨3, 0⟩, ⟨4, 0⟩] ∧
    (specNeighbourSet (sortedEdgeChars "n1---".toList)
      (tokenMaps "n1---".toList).node_chars ⟨2, 0⟩).length = 2 ∧
    (specNeighbourSet (sortedEdgeChars "n1---".toList)
      (tokenMaps "n1---".toList).node_chars ⟨3, 0⟩).length = 2 ∧
    (specNeighbourSet (sortedEdgeChars "n1---".toList)
      (tokenMaps "n1---".toList).node_chars ⟨4, 0⟩).length = 1 ∧
    graph_from_ascii "n1---" = Except.error (ParseError.tooFew 1 ⟨2, 0⟩) ∧
    (⟨2, 0⟩ : Point) ≠ ⟨4, 0⟩ := by
  refine ⟨by decide, by decide, by decide, by decide, by decide, by decide⟩

/-- C3, counterexample: for `"n2-n1"` the traced edge emits its endpoint
pair in discovery order `("n2", "n1")` although `"n1"` sorts strictly
before `"n2"`; no canonicalizing swap (nor path reversal) happens. -/
theorem c3_canonicalization_cex :
    (traceResult "n2-n1".toList).edges = [⟨[⟨2, 0⟩], [['n', '2'], ['n', '1']]⟩] ∧
    strLt ['n', '1'] ['n', '2'] = true ∧
    (graph_from_ascii "n2-n1").map (fun g => g.edges.map Prod.fst) =
      Except.ok [(['n', '2'], ['n', '1'])] := by
  refine ⟨by decide, by decide, by decide⟩

/-- C3 as amended: the emitted endpoint pair is in discovery order — the
order in which the trace encounters the two node names — with no
name-based canonicalization; the stored graph is undirected, so the edge
is still found under either orientation. -/
theorem c3_discovery_order :
    (traceResult "n2-n1".toList).edges.map EdgeData.nodes = [[['n', '2'], ['n', '1']]] ∧
    (traceResult "n1-n2".toList).edges.map EdgeData.nodes = [[['n', '1'], ['n', '2']]] ∧
    (graph_from_ascii "n2-n1").map (fun g => g.findEdge ['n', '1'] ['n', '2']) =
      Except.ok (some ⟨some 1, none⟩) := by
  refine ⟨by decide, by decide, by decide⟩

/-- C6, counterexample: in the drawing `"    |"` / `" --(cost)"` /
`"    |"` the label character `'o'` at `(5,1)` matches none of the claim's
cases — the cell to its left, `(4,1)`, holds the just-injected `'|'`, not
`'-'` — so by the claim it stays non-edge (the claim-faithful patcher
leaves it out), yet the source injects `'-'` there because its `else`
branch reuses the stale `left` cell `(2,1)` of the label's `'('`. -/
theorem c6_label_patch_cex :
    alookup (tokenMaps "    |\n --(cost)\n    |".toList).label_chars ⟨5, 1⟩ = some 'o' ∧
    alookup (patchedEdgeChars "    |\n --(cost)\n    |".toList) ⟨5, 1⟩ = some '-' ∧
    alookup (claimPatch (edgeCharsRaw "    |\n --(cost)\n    |".toList)
      (tokenMaps "    |\n --(cost)\n    |".toList).label_chars) ⟨5, 1⟩ = none := by
  refine ⟨by decide, by decide, by decide⟩

/-- C7, counterexample: for `"n1--(cost)--n2"` the cell `(4,0)` is
occupied by the label token `"(cost)"` (its `'('`), but the
label-character-to-content map has no entry there: the map is expanded
from `root + (1,0)` across the *content* length, not across the full
literal span with its parentheses. -/
theorem c7_label_map_cex :
    alookup (tokenMaps "n1--(cost)--n2".toList).label_chars ⟨4, 0⟩ = some '(' ∧
    alookup (map_text_chars_to_text (tokenMaps "n1--(cost)--n2".toList).labels) ⟨4, 0⟩ =
      none := by
  refine ⟨by decide, by decide⟩

/-- The final loop of `graph_from_ascii` succeeds exactly when every
traced edge collected exactly two node names; otherwise the first
offender (in discovery order) determines the raised error, which carries
the offender's node count and the first point of its traced path. -/
theorem addEdgesChecked_find (edges : List EdgeData) (g : AGraph) :
    (match edges.find? (fun e => decide (e.nodes.length ≠ 2)) with
     | none => ∃ g', addEdgesChecked g edges = Except.ok g'
     | some e =>
       addEdgesChecked g edges =
         Except.error
           (if 2 < e.nodes.length then ParseError.tooMany e.nodes.length (e.points.headD ⟨0, 0⟩)
            else ParseError.tooFew e.nodes.length (e.points.headD ⟨0, 0⟩)) : Prop) := by
  induction edges generalizing g with
  | nil => exact ⟨g, rfl⟩
  | cons e t ih =>
    by_cases h2 : e.nodes.length = 2
    · rw [List.find?_cons_of_neg _ (by simp [h2])]
      have hstep : addEdgesChecked g (e :: t) =
          addEdgesChecked (graphAddEdge g (e.nodes.headD []) (e.nodes.getD 1 [])) t := by
        simp only [addEdgesChecked]
        rw [if_neg (by omega), if_neg (by omega)]
      rw [hstep]
      exact ih _
    · rw [List.find?_cons_of_pos _ (by simp [h2])]
      simp only [addEdgesChecked]
      by_cases hgt : 2 < e.nodes.length
      · rw [if_pos hgt, if_pos hgt]
      · rw [if_neg hgt, if_pos (by omega), if_neg hgt]

/-- C2 as amended: the two errors are raised from the final per-edge
check, not per position — after tracing, the first discovered edge whose
collected node-name list does not have exactly two entries aborts the
parse, with `TooManyNodesOnEdge` for more than two and
`TooFewNodesOnEdge` for fewer; the error carries that edge's node count
and the first position of its traced path (no glyph and no rendered
snippet), and when every edge has exactly two names the parse succeeds. -/
theorem c2_edge_node_count_check (s : String) :
    (match (traceResult s.toList).edges.find? (fun e => decide (e.nodes.length ≠ 2)) with
     | none => ∃ g, graph_from_ascii s = Except.ok g
     | some e =>
       graph_from_ascii s =
         Except.error
           (if 2 < e.nodes.length then ParseError.tooMany e.nodes.length (e.points.headD ⟨0, 0⟩)
            else ParseError.tooFew e.nodes.length (e.points.headD ⟨0, 0⟩)) : Prop) := by
  have h := addEdgesChecked_find (traceResult s.toList).edges (baseGraph s.toList)
  rcases hf : (traceResult s.toList).edges.find? (fun e => decide (e.nodes.length ≠ 2)) with
    _ | e
  · rw [hf] at h
    simp only [hf]
    obtain ⟨g', hg'⟩ := h
    refine ⟨attrGraph s.toList g', ?_⟩
    unfold graph_from_ascii
    rw [hg']
  · rw [hf] at h
    simp only [hf]
    unfold graph_from_ascii
    rw [h]

/-- C7 as amended: the label-character map covers exactly the label's
content cells (expanded from one cell right of the token root across the
content length, parentheses excluded), each mapped to the content, and
the edge's label is attached because a claimed position of its path —
here `(5,0)`, claimed by edge 0 — appears in this map. -/
theorem c7_label_map_content_cells :
    map_text_chars_to_text (tokenMaps "n1--(cost)--n2".toList).labels =
      [(⟨5, 0⟩, ['c', 'o', 's', 't']), (⟨6, 0⟩, ['c', 'o', 's', 't']),
       (⟨7, 0⟩, ['c', 'o', 's', 't']), (⟨8, 0⟩, ['c', 'o', 's', 't'])] ∧
    alookup (traceResult "n1--(cost)--n2".toList).edgeMap ⟨5, 0⟩ = some 0 ∧
    (graph_from_ascii "n1--(cost)--n2").map
        (fun g => g.findEdge ['n', '1'] ['n', '2']) =
      Except.ok (some ⟨some 10, some ['c', 'o', 's', 't']⟩) := by
  refine ⟨by decide, by decide, by decide⟩

/-! ### The tracing-loop invariant (claim C4) -/

/-- The positions claimed by the edge with index `i`. -/
def pointsOf (st : TraceState) (i : Nat) : List Point := (st.edges.getD i ⟨[], []⟩).points

/-- Invariant of the tracing loop: the map keys are unique; a position is
mapped to `i` exactly when it lies on the points list of edge `i`; the
total of the points lists equals the number of map entries; and the map's
domain stays inside the edge-character map `ec`. -/
def TraceInv (ec : List (Point × Char)) (st : TraceState) : Prop :=
  (st.edgeMap.map Prod.fst).Nodup ∧
  (∀ p i, alookup st.edgeMap p = some i ↔ i < st.edges.length ∧ p ∈ pointsOf st i) ∧
  ((st.edges.map (fun e => e.points.length)).sum = st.edgeMap.length) ∧
  (∀ p, (alookup st.edgeMap p).isSome → (alookup ec p).isSome)

theorem isSome_odInsert {κ α : Type} [DecidableEq κ] (m : List (κ × α)) (k : κ) (v : α)
    (q : κ) (h : (alookup m q).isSome) : (alookup (odInsert m k v) q).isSome := by
  by_cases hq : k = q
  · subst hq
    rw [alookup_odInsert_self]
    rfl
  · rw [alookup_odInsert_ne _ _ _ _ hq]
    exact h

theorem traceInv_claimPos (ec : List (Point × Char)) (st : TraceState) (i : Nat) (p : Point)
    (inv : TraceInv ec st) (hi : i < st.edges.length)
    (hfresh : alookup st.edgeMap p = none) (hp : (alookup ec p).isSome) :
    TraceInv ec (claimPos st i p) := by
  obtain ⟨inv1, inv2, inv3, inv4⟩ := inv
  have hlen : (claimPos st i p).edges.length = st.edges.length := by
    simp [claimPos, updateAt]
  refine ⟨nodup_keys_odInsert _ _ _ inv1, ?_, ?_, ?_⟩
  · intro q j
    rw [hlen]
    by_cases hq : p = q
    · subst hq
      rw [show (claimPos st i p).edgeMap = odInsert st.edgeMap p i from rfl,
        alookup_odInsert_self]
      constructor
      · intro h
        have hij : j = i := by
          have := Option.some.inj h
          omega
        subst hij
        refine ⟨hi, ?_⟩
        unfold pointsOf claimPos updateAt
        dsimp only
        rw [getD_set_self _ _ _ _ hi]
        simp
      · rintro ⟨hj, hmem⟩
        by_cases hji : j = i
        · rw [hji]
        · exfalso
          have hmem' : p ∈ pointsOf st j := by
            unfold pointsOf claimPos updateAt at hmem
            dsimp only at hmem
            rwa [getD_set_ne _ _ _ _ _ (fun hc => hji hc.symm)] at hmem
          have := (inv2 p j).mpr ⟨hj, hmem'⟩
          rw [hfresh] at this
          cases this
    · rw [show (claimPos st i p).edgeMap = odInsert st.edgeMap p i from rfl,
        alookup_odInsert_ne _ _ _ _ hq]
      have hpts : ∀ j, q ∈ pointsOf (claimPos st i p) j ↔ q ∈ pointsOf st j := by
        intro j
        unfold pointsOf claimPos updateAt
        dsimp only
        by_cases hji : j = i
        · subst hji
          rw [getD_set_self _ _ _ _ hi]
          simp only [List.mem_append, List.mem_singleton]
          constructor
          · rintro (h | h)
            · exact h
            · exact absurd h.symm hq
          · exact fun h => Or.inl h
        · rw [getD_set_ne _ _ _ _ _ (fun hc => hji hc.symm)]
      rw [inv2 q j, hpts j]
  · have hsum := sum_map_set (fun e => e.points.length) st.edges i
      ({ st.edges.getD i ⟨[], []⟩ with
          points := (st.edges.getD i ⟨[], []⟩).points ++ [p] }) ⟨[], []⟩ hi
    have hlen2 : (odInsert st.edgeMap p i).length = st.edgeMap.length + 1 :=
      length_odInsert_of_none _ _ _ hfresh
    unfold claimPos updateAt
    dsimp only
    rw [hlen2, ← inv3]
    simp only [List.length_append, List.length_cons, List.length_nil] at hsum
    omega
  · intro q hq
    by_cases hqp : p = q
    · subst hqp
      exact hp
    · rw [show (claimPos st i p).edgeMap = odInsert st.edgeMap p i from rfl,
        alookup_odInsert_ne _ _ _ _ hqp] at hq
      exact inv4 q hq

theorem traceInv_newEdgeAt (ec : List (Point × Char)) (st : TraceState) (p : Point)
    (inv : TraceInv ec st) (hfresh : alookup st.edgeMap p = none)
    (hp : (alookup ec p).isSome) : TraceInv ec (newEdgeAt st p) := by
  obtain ⟨inv1, inv2, inv3, inv4⟩ := inv
  have hlen : (newEdgeAt st p).edges.length = st.edges.length + 1 := by
    simp [newEdgeAt]
  refine ⟨nodup_keys_odInsert _ _ _ inv1, ?_, ?_, ?_⟩
  · intro q j
    rw [hlen]
    have hpts : ∀ j, pointsOf (newEdgeAt st p) j =
        if j = st.edges.length then [p] else pointsOf st j := by
      intro j
      unfold pointsOf newEdgeAt
      dsimp only
      by_cases hj : j = st.edges.length
      · subst hj
        rw [if_pos rfl, getD_append_len]
      · rw [if_neg hj]
        by_cases hj2 : j < st.edges.length
        · rw [getD_append_left _ _ _ _ hj2]
        · have hge : st.edges.length + 1 ≤ j := by omega
          have h1 : (st.edges ++ [(⟨[p], []⟩ : EdgeData)]).getD j ⟨[], []⟩ =
              (⟨[], []⟩ : EdgeData) := by
            refine getD_of_le _ _ _ ?_
            simp only [List.length_append, List.length_cons, List.length_nil]
            omega
          have h2 : st.edges.getD j (⟨[], []⟩ : EdgeData) = ⟨[], []⟩ :=
            getD_of_le _ _ _ (by omega)
          rw [h1, h2]
    by_cases hq : p = q
    · subst hq
      rw [show (newEdgeAt st p).edgeMap = odInsert st.edgeMap p st.edges.length from rfl,
        alookup_odInsert_self]
      constructor
      · intro h
        have hj : j = st.edges.length := (Option.some.inj h).symm
        subst hj
        rw [hpts, if_pos rfl]
        exact ⟨by omega, List.mem_singleton_self _⟩
      · rintro ⟨hj, hmem⟩
        rw [hpts] at hmem
        by_cases hje : j = st.edges.length
        · rw [hje]
        · rw [if_neg hje] at hmem
          exfalso
          have := (inv2 p j).mpr ⟨by omega, hmem⟩
          rw [hfresh] at this
          cases this
    · rw [show (newEdgeAt st p).edgeMap = odInsert st.edgeMap p st.edges.length from rfl,
        alookup_odInsert_ne _ _ _ _ hq]
      rw [inv2 q j, hpts]
      by_cases hje : j = st.edges.length
      · rw [if_pos hje]
        subst hje
        constructor
        · rintro ⟨hj, _⟩
          omega
        · rintro ⟨_, hqq⟩
          rw [List.mem_singleton] at hqq
          exact absurd hqq.symm hq
      · rw [if_neg hje]
        constructor
        · rintro ⟨hj, hm⟩
          exact ⟨by omega, hm⟩
        · rintro ⟨hj, hm⟩
          exact ⟨by omega, hm⟩
  · unfold newEdgeAt
    dsimp only
    rw [length_odInsert_of_none _ _ _ hfresh, List.map_append, List.sum_append, inv3]
    simp
  · intro q hq
    by_cases hqp : p = q
    · subst hqp
      exact hp
    · rw [show (newEdgeAt st p).edgeMap = odInsert st.edgeMap p st.edges.length from rfl,
        alookup_odInsert_ne _ _ _ _ hqp] at hq
      exact inv4 q hq

theorem traceInv_nodesUpdate (ec : List (Point × Char)) (st : TraceState) (i : Nat)
    (ns : List (List Char)) (inv : TraceInv ec st) :
    TraceInv ec
      { st with edges := updateAt st.edges i (fun e => { e with nodes := e.nodes ++ ns }) } := by
  obtain ⟨inv1, inv2, inv3, inv4⟩ := inv
  by_cases hi : i < st.edges.length
  · have hlen : (updateAt st.edges i (fun e => { e with nodes := e.nodes ++ ns })).length =
        st.edges.length := by simp [updateAt]
    have hpts : ∀ j, pointsOf
        { st with edges := updateAt st.edges i (fun e => { e with nodes := e.nodes ++ ns }) } j =
        pointsOf st j := by
      intro j
      unfold pointsOf updateAt
      dsimp only
      by_cases hji : j = i
      · subst hji
        rw [getD_set_self _ _ _ _ hi]
      · rw [getD_set_ne _ _ _ _ _ (fun hc => hji hc.symm)]
    refine ⟨inv1, ?_, ?_, inv4⟩
    · intro q j
      rw [inv2 q j, hpts j, hlen]
    · have hsum := sum_map_set (fun e => e.points.length) st.edges i
        ({ st.edges.getD i ⟨[], []⟩ with
            nodes := (st.edges.getD i ⟨[], []⟩).nodes ++ ns }) ⟨[], []⟩ hi
      unfold updateAt
      dsimp only
      rw [← inv3]
      dsimp only at hsum
      omega
  · have : updateAt st.edges i (fun e => { e with nodes := e.nodes ++ ns }) = st.edges := by
      unfold updateAt
      exact List.set_eq_of_length_le (by omega)
    rw [this]
    exact ⟨inv1, inv2, inv3, inv4⟩

theorem edgeCharNeighbours_ne (c : Char) (p : Point) :
    p.add (edgeCharNeighbours c).1 ≠ p ∧ p.add (edgeCharNeighbours c).2 ≠ p := by
  obtain ⟨px, py⟩ := p
  unfold edgeCharNeighbours
  split_ifs <;> constructor <;>
    (intro h; simp only [Point.add, Point.mk.injEq] at h; omega)

theorem traceStep_inv (ec nc : List (Point × Char)) (ncn : List (Point × List Char))
    (st : TraceState) (pc : Point × Char) (hpc : (alookup ec pc.1).isSome)
    (inv : TraceInv ec st) :
    TraceInv ec (traceStep ec nc ncn st pc) ∧
    (alookup (traceStep ec nc ncn st pc).edgeMap pc.1).isSome ∧
    (∀ q, (alookup st.edgeMap q).isSome →
      (alookup (traceStep ec nc ncn st pc).edgeMap q).isSome) := by
  unfold traceStep
  dsimp only
  rcases h0 : alookup st.edgeMap pc.1 with _ | i₀
  case some =>
    simp only [h0]
    refine ⟨traceInv_nodesUpdate ec st i₀ _ inv, ?_, ?_⟩
    · rfl
    · intro q hq
      exact hq
  case none =>
    simp only [h0]
    -- the state after the position (and possibly the lookahead) is claimed
    have hne2 := (edgeCharNeighbours_ne pc.2 pc.1).2
    have key : ∀ stA iA, TraceInv ec stA → iA < stA.edges.length →
        alookup stA.edgeMap pc.1 = some iA →
        (∀ q, (alookup st.edgeMap q).isSome → (alookup stA.edgeMap q).isSome) →
        TraceInv ec
          (if (alookup stA.edgeMap (pc.1.add (edgeCharNeighbours pc.2).2)).isNone &&
              (alookup ec (pc.1.add (edgeCharNeighbours pc.2).2)).isSome then
            claimPos stA iA (pc.1.add (edgeCharNeighbours pc.2).2)
          else stA) ∧
        (alookup
          (if (alookup stA.edgeMap (pc.1.add (edgeCharNeighbours pc.2).2)).isNone &&
              (alookup ec (pc.1.add (edgeCharNeighbours pc.2).2)).isSome then
            claimPos stA iA (pc.1.add (edgeCharNeighbours pc.2).2)
          else stA).edgeMap pc.1).isSome ∧
        (∀ q, (alookup st.edgeMap q).isSome →
          (alookup
            (if (alookup stA.edgeMap (pc.1.add (edgeCharNeighbours pc.2).2)).isNone &&
                (alookup ec (pc.1.add (edgeCharNeighbours pc.2).2)).isSome then
              claimPos stA iA (pc.1.add (edgeCharNeighbours pc.2).2)
            else stA).edgeMap q).isSome) := by
      intro stA iA invA hiA hposA domA
      by_cases h2 : ((alookup stA.edgeMap (pc.1.add (edgeCharNeighbours pc.2).2)).isNone &&
          (alookup ec (pc.1.add (edgeCharNeighbours pc.2).2)).isSome) = true
      · rw [if_pos h2]
        have h2' := h2
        simp only [Bool.and_eq_true] at h2'
        obtain ⟨h2a, h2b⟩ := h2'
        have hfresh2 : alookup stA.edgeMap (pc.1.add (edgeCharNeighbours pc.2).2) = none :=
          Option.isNone_iff_eq_none.mp h2a
        refine ⟨traceInv_claimPos ec stA iA _ invA hiA hfresh2 h2b, ?_, ?_⟩
        · show (alookup (odInsert stA.edgeMap (pc.1.add (edgeCharNeighbours pc.2).2) iA)
            pc.1).isSome
          rw [alookup_odInsert_ne _ _ _ _ hne2, hposA]
          rfl
        · intro q hq
          exact isSome_odInsert _ _ _ _ (domA q hq)
      · rw [if_neg h2]
        refine ⟨invA, ?_, domA⟩
        rw [hposA]
        rfl
    rcases h1 : alookup st.edgeMap (pc.1.add (edgeCharNeighbours pc.2).1) with _ | i₁
    case none =>
      simp only [h1]
      have hiA : st.edges.length < (newEdgeAt st pc.1).edges.length := by
        simp [newEdgeAt]
      have hposA : alookup (newEdgeAt st pc.1).edgeMap pc.1 = some st.edges.length :=
        alookup_odInsert_self _ _ _
      obtain ⟨k1, k2, k3⟩ := key (newEdgeAt st pc.1) st.edges.length
        (traceInv_newEdgeAt ec st pc.1 inv h0 hpc) hiA hposA
        (fun q hq => isSome_odInsert _ _ _ _ hq)
      rcases h3 : alookup
          (if (alookup (newEdgeAt st pc.1).edgeMap
                (pc.1.add (edgeCharNeighbours pc.2).2)).isNone &&
              (alookup ec (pc.1.add (edgeCharNeighbours pc.2).2)).isSome then
            claimPos (newEdgeAt st pc.1) st.edges.length
              (pc.1.add (edgeCharNeighbours pc.2).2)
          else newEdgeAt st pc.1).edgeMap pc.1 with _ | i₃
      · rw [h3] at k2
        cases k2
      · simp only [h3]
        refine ⟨traceInv_nodesUpdate ec _ i₃ _ k1, ?_, ?_⟩
        · rfl
        · intro q hq
          exact k3 q hq
    case some =>
      simp only [h1]
      have hiA : i₁ < st.edges.length := ((inv.2.1 _ _).mp h1).1
      have hiA' : i₁ < (claimPos st i₁ pc.1).edges.length := by
        simpa [claimPos, updateAt] using hiA
      have hposA : alookup (claimPos st i₁ pc.1).edgeMap pc.1 = some i₁ :=
        alookup_odInsert_self _ _ _
      obtain ⟨k1, k2, k3⟩ := key (claimPos st i₁ pc.1) i₁
        (traceInv_claimPos ec st i₁ pc.1 inv hiA h0 hpc) hiA' hposA
        (fun q hq => isSome_odInsert _ _ _ _ hq)
      rcases h3 : alookup
          (if (alookup (claimPos st i₁ pc.1).edgeMap
                (pc.1.add (edgeCharNeighbours pc.2).2)).isNone &&
              (alookup ec (pc.1.add (edgeCharNeighbours pc.2).2)).isSome then
            claimPos (claimPos st i₁ pc.1) i₁ (pc.1.add (edgeCharNeighbours pc.2).2)
          else claimPos st i₁ pc.1).edgeMap pc.1 with _ | i₃
      · rw [h3] at k2
        cases k2
      · simp only [h3]
        refine ⟨traceInv_nodesUpdate ec _ i₃ _ k1, ?_, ?_⟩
        · rfl
        · intro q hq
          exact k3 q hq

theorem alookup_isSome_mem {κ α : Type} [DecidableEq κ] (m : List (κ × α)) (k : κ)
    (h : (alookup m k).isSome) : k ∈ m.map Prod.fst := by
  induction m with
  | nil => simp [alookup] at h
  | cons kv t ih =>
    obtain ⟨k₀, v₀⟩ := kv
    by_cases h0 : k₀ = k
    · simp [h0]
    · simp only [alookup, if_neg h0] at h
      exact List.mem_cons_of_mem _ (ih h)

theorem mem_key_isSome {κ α : Type} [DecidableEq κ] (m : List (κ × α)) (x : κ × α)
    (h : x ∈ m) : (alookup m x.1).isSome :=
  mem_alookup_isSome _ _ (List.mem_map.mpr ⟨x, h, rfl⟩)

theorem traceFold_inv (ec nc : List (Point × Char)) (ncn : List (Point × List Char)) :
    ∀ (l : List (Point × Char)) (st : TraceState),
      (∀ x ∈ l, (alookup ec x.1).isSome) → TraceInv ec st →
      TraceInv ec (l.foldl (traceStep ec nc ncn) st) ∧
      (∀ q, (alookup st.edgeMap q).isSome →
        (alookup (l.foldl (traceStep ec nc ncn) st).edgeMap q).isSome) ∧
      (∀ x ∈ l, (alookup (l.foldl (traceStep ec nc ncn) st).edgeMap x.1).isSome) := by
  intro l
  induction l with
  | nil =>
    intro st _ inv
    exact ⟨inv, fun q hq => hq, by simp⟩
  | cons pc t ih =>
    intro st hl inv
    obtain ⟨s1, s2, s3⟩ := traceStep_inv ec nc ncn st pc (hl pc (List.mem_cons_self _ _)) inv
    obtain ⟨f1, f2, f3⟩ := ih (traceStep ec nc ncn st pc)
      (fun x hx => hl x (List.mem_cons_of_mem _ hx)) s1
    rw [List.foldl_cons]
    refine ⟨f1, fun q hq => f2 q (s3 q hq), ?_⟩
    intro x hx
    rcases List.mem_cons.mp hx with hx | hx
    · subst hx
      exact f2 x.1 s2
    · exact f3 x hx

theorem keys_nodup_dictOfPairs {κ α : Type} [DecidableEq κ] (l : List (κ × α)) :
    ((dictOfPairs l).map Prod.fst).Nodup := by
  unfold dictOfPairs
  suffices h : ∀ (m : List (κ × α)), (m.map Prod.fst).Nodup →
      ((l.foldl (fun m kv => odInsert m kv.1 kv.2) m).map Prod.fst).Nodup from h [] (by simp)
  induction l with
  | nil => exact fun m hm => hm
  | cons kv t ih => exact fun m hm => ih _ (nodup_keys_odInsert _ _ _ hm)

theorem patchStep_edge_chars_cases (st : PatchState) (pc : Point × Char) :
    (patchStep st pc).edge_chars = st.edge_chars ∨
      ∃ ch, (patchStep st pc).edge_chars = odInsert st.edge_chars pc.1 ch := by
  obtain ⟨sec, sl⟩ := st
  cases sl <;>
    (unfold patchStep; dsimp only; split_ifs <;>
      first
        | exact Or.inl rfl
        | exact Or.inr ⟨_, rfl⟩)

theorem nodup_keys_patchFold (lcs : List (Point × Char)) : ∀ (st : PatchState),
    ((st.edge_chars.map Prod.fst).Nodup) →
    (((lcs.foldl patchStep st).edge_chars).map Prod.fst).Nodup := by
  induction lcs with
  | nil => exact fun st h => h
  | cons pc t ih =>
    intro st h
    rw [List.foldl_cons]
    refine ih _ ?_
    rcases patchStep_edge_chars_cases st pc with hc | ⟨ch, hc⟩
    · rw [hc]
      exact h
    · rw [hc]
      exact nodup_keys_odInsert _ _ _ h

theorem nodup_keys_sortedEdgeChars (s : List Char) :
    ((sortedEdgeChars s).map Prod.fst).Nodup := by
  unfold sortedEdgeChars
  have hperm := (List.perm_insertionSort ptKeyLE (patchedEdgeChars s)).map Prod.fst
  refine hperm.nodup_iff.mpr ?_
  unfold patchedEdgeChars
  exact nodup_keys_patchFold _ _ (keys_nodup_dictOfPairs _)

theorem length_eq_of_nodup_mutual {α : Type} [DecidableEq α] (l₁ l₂ : List α)
    (h₁ : l₁.Nodup) (h₂ : l₂.Nodup) (hsub : ∀ x, x ∈ l₁ ↔ x ∈ l₂) :
    l₁.length = l₂.length := by
  rw [← List.toFinset_card_of_nodup h₁, ← List.toFinset_card_of_nodup h₂]
  congr 1
  ext x
  simp only [List.mem_toFinset]
  exact hsub x

/-- The patch rule of claim C6 as amended: within one label the
fall-through case tests the (fixed) cell to the left of the label's
opening parenthesis instead of the cell to the left of the current
position. -/
def amendedPatchChar (leftOfParen : Point) (ec : List (Point × Char)) (pc : Point × Char) :
    List (Point × Char) :=
  let position := pc.1
  let above := position.add ⟨0, -1⟩
  let below := position.add ⟨0, 1⟩
  if pc.2 = '(' then
    (if alookup ec (position.add ⟨-1, 0⟩) = some '-' then odInsert ec position '-' else ec)
  else if pc.2 = ')' then
    (if alookup ec (position.add ⟨1, 0⟩) = some '-' then odInsert ec position '-' else ec)
  else if alookup ec above = some '|' && alookup ec below = some '|' then
    odInsert ec position '|'
  else if alookup ec leftOfParen = some '-' then odInsert ec position '-'
  else ec

/-- The amended patch pass: label by label, each label carrying the cell
left of its own opening parenthesis as the fall-through reference. -/
def amendedPatch (ec : List (Point × Char)) : List (List Char × Point) → List (Point × Char)
  | [] => ec
  | t :: ls =>
    amendedPatch ((char_map t.1 t.2).foldl (amendedPatchChar (t.2.add ⟨-1, 0⟩)) ec) ls

theorem patchStep_not_paren (sec : List (Point × Char)) (l : Point) (pc : Point × Char)
    (hc : pc.2 ≠ '(') :
    patchStep ⟨sec, some l⟩ pc = ⟨amendedPatchChar l sec pc, some l⟩ := by
  unfold patchStep amendedPatchChar
  dsimp only
  rw [if_neg hc, if_neg hc]
  split_ifs <;> rfl

theorem patch_fold_no_paren (cs : List (Point × Char)) (sec : List (Point × Char)) (l : Point)
    (hcs : ∀ pc ∈ cs, pc.2 ≠ '(') :
    cs.foldl patchStep ⟨sec, some l⟩ = ⟨cs.foldl (amendedPatchChar l) sec, some l⟩ := by
  induction cs generalizing sec with
  | nil => rfl
  | cons pc t ih =>
    rw [List.foldl_cons, List.foldl_cons, patchStep_not_paren _ _ _
      (hcs pc (List.mem_cons_self _ _))]
    exact ih _ (fun x hx => hcs x (List.mem_cons_of_mem _ hx))

theorem patch_fold_label (root : Point) (sec : List (Point × Char))
    (l0 : Option Point) (body : List Char) (hb : '(' ∉ body) :
    (char_map ('(' :: body) root).foldl patchStep ⟨sec, l0⟩ =
      ⟨(char_map ('(' :: body) root).foldl (amendedPatchChar (root.add ⟨-1, 0⟩)) sec,
        some (root.add ⟨-1, 0⟩)⟩ := by
  rw [char_map_cons, List.foldl_cons, List.foldl_cons]
  have hstep : patchStep ⟨sec, l0⟩ (root, '(') =
      ⟨amendedPatchChar (root.add ⟨-1, 0⟩) sec (root, '('), some (root.add ⟨-1, 0⟩)⟩ := by
    unfold patchStep amendedPatchChar
    dsimp only
    rw [if_pos rfl, if_pos rfl]
    split_ifs <;> rfl
  rw [hstep]
  exact patch_fold_no_paren _ _ _
    (fun pc hpc hcq => hb (hcq ▸ char_map_snd_mem _ _ _ hpc))

/-- C6 as amended: the label patcher behaves like the claim's rule except
in the fall-through case, which tests the cell to the left of the
label's opening parenthesis (the stale Python variable `left`), not the
cell to the left of the current position.  Stated for any run of the
patch loop over the concatenated cell maps of labels that each start
with `'('` (as every scanned label does) and contain no further `'('`. -/
theorem c6_stale_left_patch (labels : List (List Char × Point)) (ec : List (Point × Char))
    (l0 : Option Point)
    (hlab : ∀ t ∈ labels, ∃ body, t.1 = '(' :: body ∧ '(' ∉ body) :
    ((labels.map (fun t => char_map t.1 t.2)).flatten.foldl patchStep
        ⟨ec, l0⟩).edge_chars =
      amendedPatch ec labels := by
  induction labels generalizing ec l0 with
  | nil => rfl
  | cons t ls ih =>
    obtain ⟨body, ht, hb⟩ := hlab t (List.mem_cons_self _ _)
    rw [List.map_cons, List.flatten_cons, List.foldl_append, ht, patch_fold_label _ _ _ _ hb]
    have hrhs : amendedPatch ec (t :: ls) =
        amendedPatch ((char_map t.1 t.2).foldl (amendedPatchChar (t.2.add ⟨-1, 0⟩)) ec) ls := rfl
    rw [hrhs, ht]
    exact ih _ _ (fun x hx => hlab x (List.mem_cons_of_mem _ hx))

/-- Witness for the amended C6 at the label `"(cost)"` of the
counterexample drawing: the hypotheses hold and the staled-left patch run
coincides with the amended per-label rule. -/
theorem c6_stale_left_patch_witness :
    (∀ t ∈ [((['(', 'c', 'o', 's', 't', ')'] : List Char), (⟨3, 1⟩ : Point))],
      ∃ body, t.1 = '(' :: body ∧ '(' ∉ body) ∧
    (([((['(', 'c', 'o', 's', 't', ')'] : List Char), (⟨3, 1⟩ : Point))].map
          (fun t => char_map t.1 t.2)).flatten.foldl patchStep
        ⟨edgeCharsRaw "    |\n --(cost)\n    |".toList, none⟩).edge_chars =
      amendedPatch (edgeCharsRaw "    |\n --(cost)\n    |".toList)
        [((['(', 'c', 'o', 's', 't', ')'] : List Char), ⟨3, 1⟩)] :=
  have hlab : ∀ t ∈ [((['(', 'c', 'o', 's', 't', ')'] : List Char), (⟨3, 1⟩ : Point))],
      ∃ body, t.1 = '(' :: body ∧ '(' ∉ body := by
    intro t ht
    rw [List.mem_singleton] at ht
    subst ht
    exact ⟨['c', 'o', 's', 't', ')'], rfl, by decide⟩
  ⟨hlab, c6_stale_left_patch _ _ _ hlab⟩

/-! ### The scanner is leftmost maximal munch (claim C8) -/

theorem maxMatchLenAux_eq_some (l : List Char) (N : Nat)
    (hN : isTokMatch (l.take N) = true) :
    ∀ k, N ≤ k → (∀ n, n ≤ k → isTokMatch (l.take n) = true → n ≤ N) →
      maxMatchLenAux k l = some N := by
  intro k
  induction k with
  | zero =>
    intro hNk _
    have hN0 : N = 0 := Nat.le_zero.mp hNk
    subst hN0
    unfold maxMatchLenAux
    rw [if_pos hN]
  | succ k ih =>
    intro hNk hmax
    unfold maxMatchLenAux
    by_cases hk : isTokMatch (l.take (k + 1)) = true
    · have h1 : k + 1 ≤ N := hmax (k + 1) le_rfl hk
      have h2 : N = k + 1 := le_antisymm hNk h1
      rw [if_pos hk, h2]
    · rw [if_neg hk]
      have hNk' : N ≤ k := by
        by_cases hNe : N = k + 1
        · exact absurd (hNe ▸ hN) hk
        · omega
      exact ih hNk' (fun n hn h => hmax n (by omega) h)

theorem maxMatchLenAux_eq_none (l : List Char) :
    ∀ k, (∀ n, n ≤ k → isTokMatch (l.take n) = false) → maxMatchLenAux k l = none := by
  intro k
  induction k with
  | zero =>
    intro h
    unfold maxMatchLenAux
    rw [if_neg (by rw [List.take_zero]; decide)]
  | succ k ih =>
    intro h
    unfold maxMatchLenAux
    rw [if_neg (by simp [h (k + 1) le_rfl])]
    exact ih (fun n hn => h n (by omega))

theorem bodyOpt_nil : bodyOpt [] = false := rfl

theorem bodyOpt_head_not (c : Char) (x : List Char) (h : isTokChar c = false) :
    bodyOpt (c :: x) = false := by
  unfold bodyOpt
  rw [List.takeWhile_cons, if_neg (by simp [h])]
  rfl

theorem takeWhile_all {p : Char → Bool} (r : List Char) (h : ∀ c ∈ r, p c = true) :
    r.takeWhile p = r := by
  induction r with
  | nil => rfl
  | cons c t ih =>
    rw [List.takeWhile_cons, if_pos (h c (List.mem_cons_self _ _)),
      ih (fun x hx => h x (List.mem_cons_of_mem _ hx))]

theorem takeWhile_append_not {p : Char → Bool} (r : List Char) (c : Char) (t : List Char)
    (hr : ∀ x ∈ r, p x = true) (hc : p c = false) :
    (r ++ c :: t).takeWhile p = r := by
  induction r with
  | nil => simp [List.takeWhile_cons, hc]
  | cons a r ih =>
    rw [List.cons_append, List.takeWhile_cons, if_pos (hr a (List.mem_cons_self _ _)),
      ih (fun x hx => hr x (List.mem_cons_of_mem _ hx))]

theorem dropWhile_head_false (p : Char → Bool) : ∀ (l : List Char) (c : Char) (t : List Char),
    l.dropWhile p = c :: t → p c = false := by
  intro l
  induction l with
  | nil =>
    intro c t h
    cases h
  | cons a l ih =>
    intro c t h
    rw [List.dropWhile_cons] at h
    by_cases hpa : p a = true
    · rw [if_pos hpa] at h
      exact ih c t h
    · rw [if_neg hpa] at h
      cases h
      simpa using hpa

theorem drop_length_takeWhile (p : Char → Bool) (l : List Char) :
    l.drop (l.takeWhile p).length = l.dropWhile p := by
  induction l with
  | nil => rfl
  | cons a t ih =>
    rw [List.takeWhile_cons, List.dropWhile_cons]
    by_cases hpa : p a = true
    · rw [if_pos hpa, if_pos hpa]
      simpa using ih
    · rw [if_neg hpa, if_neg hpa]
      rfl

theorem matchCore_none_take (l : List Char) (h : matchCore l = none) (n : Nat) :
    bodyOpt (l.take n) = false := by
  have hr : l.takeWhile isTokChar = [] := by
    unfold matchCore at h
    split at h
    · assumption
    · cases h
    · cases h
  rcases l with _ | ⟨c, rest⟩
  · rw [List.take_nil]
    rfl
  · have hc : isTokChar c = false := by
      rw [List.takeWhile_cons] at hr
      by_cases hx : isTokChar c = true
      · rw [if_pos hx] at hr
        cases hr
      · simpa using hx
    cases n with
    | zero => rfl
    | succ n =>
      rw [List.take_succ_cons]
      exact bodyOpt_head_not _ _ hc

theorem matchCore_some_spec (l m : List Char) (h : matchCore l = some m) :
    m = l.take m.length ∧ 1 ≤ m.length ∧ m.length ≤ l.length ∧
      bodyOpt (l.take m.length) = true ∧
      (∀ n, n ≤ l.length → bodyOpt (l.take n) = true → n ≤ m.length) := by
  have hsplit : l.takeWhile isTokChar ++ l.dropWhile isTokChar = l :=
    List.takeWhile_append_dropWhile _ _
  unfold matchCore at h
  split at h
  · cases h
  · rename_i r rs t heq1 heq2
    rw [drop_length_takeWhile] at heq2
    cases h
    have hRtok : ∀ c ∈ r :: rs, isTokChar c = true :=
      fun c hc => List.mem_takeWhile_imp (heq1 ▸ hc)
    have hl : l = (r :: rs) ++ ')' :: t := by
      rw [← hsplit, heq1, heq2]
    have hmlen : (r :: rs ++ [')']).length = (r :: rs).length + 1 := by simp
    have hllen : l.length = (r :: rs).length + 1 + t.length := by
      rw [hl]
      simp
      omega
    have htake : l.take ((r :: rs).length + 1) = r :: rs ++ [')'] := by
      rw [hl, List.take_append]
      simp
    refine ⟨?_, by simp, by omega, ?_, ?_⟩
    · rw [hmlen, htake]
    · rw [hmlen, htake]
      unfold bodyOpt
      rw [show (r :: rs) ++ [')'] = (r :: rs) ++ ')' :: [] from rfl,
        takeWhile_append_not _ _ _ hRtok (by decide), List.drop_left]
      simp
    · intro n hn hbody
      by_contra hgt
      have hlen1 : (r :: rs).length = rs.length + 1 := by simp
      have hn2 : rs.length + 3 ≤ n := by
        simp only [List.length_append, List.length_cons, List.length_nil] at hgt
        omega
      have htne : t ≠ [] := by
        intro hte
        subst hte
        rw [hl] at hn
        simp only [List.length_append, List.length_cons, List.length_nil] at hn
        omega
      have hi : n = (r :: rs).length + (n - (r :: rs).length) := by omega
      rw [hl, hi, List.take_append] at hbody
      have hi2 : n - (r :: rs).length = (n - (r :: rs).length - 1) + 1 := by omega
      rw [hi2, List.take_succ_cons] at hbody
      unfold bodyOpt at hbody
      rw [takeWhile_append_not _ _ _ hRtok (by decide), List.drop_left] at hbody
      simp at hbody
      rcases hbody with hb | hb
      · omega
      · exact htne hb
  · rename_i r rs heq1 heq2
    cases h
    have hRtok : ∀ c ∈ r :: rs, isTokChar c = true :=
      fun c hc => List.mem_takeWhile_imp (heq1 ▸ hc)
    have hdw : l.drop (l.takeWhile isTokChar).length = l.dropWhile isTokChar :=
      drop_length_takeWhile _ _
    have hd2 : ∀ tail, l.dropWhile isTokChar ≠ ')' :: tail :=
      fun tail hc => heq2 tail (hdw ▸ hc)
    have hl : l = (r :: rs) ++ l.dropWhile isTokChar := by
      conv_lhs => rw [← hsplit]
      rw [heq1]
    have hbody_rs : bodyOpt (r :: rs) = true := by
      unfold bodyOpt
      rw [takeWhile_all _ hRtok, List.drop_length]
      simp
    rcases hdcase : l.dropWhile isTokChar with _ | ⟨c, t⟩
    · rw [hdcase, List.append_nil] at hl
      refine ⟨?_, by simp, ?_, ?_, ?_⟩
      · rw [hl, List.take_length]
      · rw [hl]
      · rw [hl, List.take_length]
        exact hbody_rs
      · intro n hn _
        rw [hl] at hn
        exact hn
    · have hc1 : isTokChar c = false := dropWhile_head_false _ l c t hdcase
      have hc2 : c ≠ ')' := fun hcc => hd2 t (by rw [hdcase, hcc])
      rw [hdcase] at hl
      have ht : l.take (r :: rs).length = r :: rs := by
        rw [hl]
        exact List.take_left _ _
      refine ⟨ht.symm, by simp, ?_, ?_, ?_⟩
      · rw [hl]
        simp only [List.length_append, List.length_cons]
        omega
      · rw [ht]
        exact hbody_rs
      · intro n hn hbody
        by_contra hgt
        have hlen1 : (r :: rs).length = rs.length + 1 := by simp
        have hn2 : rs.length + 2 ≤ n := by omega
        have hi : n = (r :: rs).length + (n - (r :: rs).length) := by omega
        rw [hl, hi, List.take_append] at hbody
        have hi2 : n - (r :: rs).length = (n - (r :: rs).length - 1) + 1 := by omega
        rw [hi2, List.take_succ_cons] at hbody
        unfold bodyOpt at hbody
        rw [takeWhile_append_not _ _ _ hRtok hc1, List.drop_left] at hbody
        simp at hbody
        exact hc2 hbody.1

theorem isTokMatch_paren (rest : List Char) : isTokMatch ('(' :: rest) = bodyOpt rest := by
  unfold isTokMatch
  rw [bodyOpt_head_not '(' rest (by decide), List.headD_cons]
  simp

theorem isTokMatch_not_paren (c : Char) (rest : List Char) (h : c ≠ '(') :
    isTokMatch (c :: rest) = bodyOpt (c :: rest) := by
  unfold isTokMatch
  rw [List.headD_cons]
  simp [h]

theorem matchAt_spec (l : List Char) :
    (matchAt l = none → maxMatchLen l = none) ∧
    (∀ m, matchAt l = some m →
      maxMatchLen l = some m.length ∧ m = l.take m.length) := by
  rcases l with _ | ⟨c, rest⟩
  · constructor
    · intro _
      rfl
    · intro m h
      cases h
  · by_cases hc : c = '('
    · subst hc
      have hAt : matchAt ('(' :: rest) =
          (match matchCore rest with
           | some m' => some ('(' :: m')
           | none => matchCore ('(' :: rest)) := rfl
      have htw : ('(' :: rest).takeWhile isTokChar = [] := by
        rw [List.takeWhile_cons, if_neg (by decide)]
      have hmc0 : matchCore ('(' :: rest) = none := by
        unfold matchCore
        rw [htw]
      rcases hmc : matchCore rest with _ | m'
      · constructor
        · intro _
          unfold maxMatchLen
          refine maxMatchLenAux_eq_none _ _ ?_
          intro n hn
          cases n with
          | zero =>
            rw [List.take_zero]
            decide
          | succ n =>
            rw [List.take_succ_cons, isTokMatch_paren]
            exact matchCore_none_take rest hmc n
        · intro m h
          rw [hAt, hmc, hmc0] at h
          cases h
      · obtain ⟨htake, hpos, hlen, hbody, hmaxi⟩ := matchCore_some_spec rest m' hmc
        constructor
        · intro hnone
          rw [hAt, hmc] at hnone
          cases hnone
        · intro m h
          rw [hAt, hmc] at h
          cases h
          constructor
          · unfold maxMatchLen
            refine maxMatchLenAux_eq_some _ _ ?_ _ ?_ ?_
            · show isTokMatch (('(' :: rest).take (m'.length + 1)) = true
              rw [List.take_succ_cons, isTokMatch_paren]
              exact hbody
            · simp only [List.length_cons]
              omega
            · intro n hn htok
              cases n with
              | zero => exact Nat.zero_le _
              | succ n =>
                rw [List.take_succ_cons, isTokMatch_paren] at htok
                have := hmaxi n (by simpa using hn) htok
                simp only [List.length_cons]
                omega
          · show '(' :: m' = ('(' :: rest).take (('(' :: m').length)
            simp only [List.length_cons]
            rw [List.take_succ_cons, ← htake]
    · have hAt : matchAt (c :: rest) = matchCore (c :: rest) := by
        unfold matchAt
        split
        · rename_i rest' heq
          cases heq
          exact absurd rfl hc
        · rfl
      rcases hmc : matchCore (c :: rest) with _ | m
      · constructor
        · intro _
          unfold maxMatchLen
          refine maxMatchLenAux_eq_none _ _ ?_
          intro n hn
          cases n with
          | zero =>
            rw [List.take_zero]
            decide
          | succ n =>
            rw [List.take_succ_cons, isTokMatch_not_paren c _ hc, ← List.take_succ_cons]
            exact matchCore_none_take _ hmc (n + 1)
        · intro m h
          rw [hAt, hmc] at h
          cases h
      · obtain ⟨htake, hpos, hlen, hbody, hmaxi⟩ := matchCore_some_spec (c :: rest) m hmc
        constructor
        · intro hnone
          rw [hAt, hmc] at hnone
          cases hnone
        · intro m₂ h
          rw [hAt, hmc] at h
          cases h
          refine ⟨?_, htake⟩
          unfold maxMatchLen
          refine maxMatchLenAux_eq_some _ _ ?_ _ hlen ?_
          · have hml : m.length = (m.length - 1) + 1 := by omega
            rw [hml, List.take_succ_cons, isTokMatch_not_paren c _ hc,
              ← List.take_succ_cons, ← hml]
            exact hbody
          · intro n hn htok
            cases n with
            | zero => exact Nat.zero_le _
            | succ n =>
              rw [List.take_succ_cons, isTokMatch_not_paren c _ hc,
                ← List.take_succ_cons] at htok
              exact hmaxi (n + 1) hn htok

set_option maxHeartbeats 1600000 in
theorem scanLineAux_eq_specScanAux : ∀ (fuel : Nat) (l : List Char) (col : Nat),
    scanLineAux fuel l col = specScanAux fuel l col := by
  intro fuel
  induction fuel with
  | zero =>
    intro l col
    rfl
  | succ fuel ih =>
    intro l col
    rcases l with _ | ⟨c, rest⟩
    · rfl
    · simp only [scanLineAux, specScanAux]
      rcases hma : matchAt (c :: rest) with _ | m
      · rw [(matchAt_spec (c :: rest)).1 hma]
        exact ih rest (col + 1)
      · obtain ⟨hmax, htake⟩ := (matchAt_spec (c :: rest)).2 m hma
        rw [hmax]
        show (m, col) :: scanLineAux fuel (List.drop m.length (c :: rest)) (col + m.length) =
          ((c :: rest).take m.length, col) ::
            specScanAux fuel (List.drop m.length (c :: rest)) (col + m.length)
        rw [← htake, ih]

/-- C10: if the same node name occurs as a token at several distinct root
positions, a successful parse returns a graph containing a single node of
that name (node names are not duplicated), and its `position` attribute
is the root position of the occurrence scanned last in row-major order
(each `add_nodes_from` entry overwrites the attribute of the node of the
same name). -/
theorem c10_duplicate_node_positions (s : String) (g : AGraph) (name : List Char) (p : Point)
    (hg : graph_from_ascii s = Except.ok g)
    (hl : lastPos (tokenMaps s.toList).nodes name = some p) :
    lookupName g.nodes name = some (some p) ∧ (g.nodes.map Prod.fst).Nodup := by
  unfold graph_from_ascii at hg
  rcases haec : addEdgesChecked (baseGraph s.toList) (traceResult s.toList).edges with e | g1
  · rw [haec] at hg
    cases hg
  · rw [haec] at hg
    cases hg
    have hbase : lookupName (baseGraph s.toList).nodes name = some (some p) := by
      simp only [baseGraph, addNodesFrom]
      rw [lookupName_addNodesFold, hl]
    have hnodup : ((baseGraph s.toList).nodes.map Prod.fst).Nodup := by
      simp only [baseGraph, addNodesFrom]
      exact nodup_addNodesFold _ _ (by simp)
    exact ⟨addEdgesChecked_lookupName _ _ g1 _ _ haec hbase,
      addEdgesChecked_nodup _ _ g1 haec hnodup⟩

/-- Witness for C10 at the concrete input `"n1-n1"`: the name `n1` occurs
at roots `(0,0)` and `(3,0)`; the parse succeeds with a single node `n1`
positioned at `(3,0)`, the last occurrence. -/
theorem c10_witness :
    graph_from_ascii "n1-n1" =
        Except.ok
          ⟨[(['n', '1'], some ⟨3, 0⟩)], [((['n', '1'], ['n', '1']), ⟨some 1, none⟩)]⟩ ∧
    lastPos (tokenMaps "n1-n1".toList).nodes ['n', '1'] = some ⟨3, 0⟩ ∧
    (lookupName (AGraph.mk [(['n', '1'], some ⟨3, 0⟩)]
        [((['n', '1'], ['n', '1']), ⟨some 1, none⟩)]).nodes ['n', '1'] = some (some ⟨3, 0⟩) ∧
      ((AGraph.mk [(['n', '1'], some ⟨3, 0⟩)]
        [((['n', '1'], ['n', '1']), ⟨some 1, none⟩)]).nodes.map Prod.fst).Nodup) :=
  ⟨by decide, by decide,
    c10_duplicate_node_positions "n1-n1"
      (AGraph.mk [(['n', '1'], some ⟨3, 0⟩)] [((['n', '1'], ['n', '1']), ⟨some 1, none⟩)])
      ['n', '1'] ⟨3, 0⟩ (by decide) (by decide)⟩

/-- C4: after a parse that completes without raising, every position in
the (sorted) patched edge-character map is claimed by exactly one traced
edge — it lies on the points list of a unique edge index — and the sum
over all edges of the claimed-position counts equals the total number of
entries in the edge-character map. -/
theorem c4_partition (s : String) (g : AGraph) (hg : graph_from_ascii s = Except.ok g) :
    (∀ pc ∈ sortedEdgeChars s.toList,
      ∃ i, (i < (traceResult s.toList).edges.length ∧
          pc.1 ∈ pointsOf (traceResult s.toList) i) ∧
        ∀ j, j < (traceResult s.toList).edges.length →
          pc.1 ∈ pointsOf (traceResult s.toList) j → j = i) ∧
    ((traceResult s.toList).edges.map (fun e => e.points.length)).sum =
      (sortedEdgeChars s.toList).length := by
  have hinit : TraceInv (sortedEdgeChars s.toList) ⟨[], []⟩ := by
    refine ⟨by simp, ?_, rfl, ?_⟩
    · intro p i
      constructor
      · intro h
        cases h
      · rintro ⟨hi, _⟩
        simp at hi
    · intro p h
      simp [alookup] at h
  obtain ⟨inv, _, cover⟩ := traceFold_inv (sortedEdgeChars s.toList)
    (tokenMaps s.toList).node_chars (map_text_chars_to_text (tokenMaps s.toList).nodes)
    (sortedEdgeChars s.toList) ⟨[], []⟩ (fun x hx => mem_key_isSome _ _ hx) hinit
  have htr : traceResult s.toList =
      (sortedEdgeChars s.toList).foldl
        (traceStep (sortedEdgeChars s.toList) (tokenMaps s.toList).node_chars
          (map_text_chars_to_text (tokenMaps s.toList).nodes)) ⟨[], []⟩ := rfl
  obtain ⟨inv1, inv2, inv3, inv4⟩ := inv
  constructor
  · intro pc hpc
    have hsome := cover pc hpc
    rw [← htr] at hsome
    rcases hlook : alookup (traceResult s.toList).edgeMap pc.1 with _ | i
    · rw [hlook] at hsome
      cases hsome
    · rw [htr] at hlook
      obtain ⟨hi, hmem⟩ := (inv2 pc.1 i).mp hlook
      rw [← htr] at hi hmem
      refine ⟨i, ⟨hi, hmem⟩, ?_⟩
      intro j hj hmemj
      rw [htr] at hj hmemj
      have h2 := (inv2 pc.1 j).mpr ⟨hj, hmemj⟩
      rw [hlook] at h2
      exact (Option.some.inj h2).symm
  · rw [htr]
    rw [inv3]
    have hkeylen : ((sortedEdgeChars s.toList).foldl
        (traceStep (sortedEdgeChars s.toList) (tokenMaps s.toList).node_chars
          (map_text_chars_to_text (tokenMaps s.toList).nodes))
        ⟨[], []⟩).edgeMap.length = (sortedEdgeChars s.toList).length := by
      have h1 : (((sortedEdgeChars s.toList).foldl
          (traceStep (sortedEdgeChars s.toList) (tokenMaps s.toList).node_chars
            (map_text_chars_to_text (tokenMaps s.toList).nodes))
          ⟨[], []⟩).edgeMap.map Prod.fst).length = (((sortedEdgeChars s.toList)).map
            Prod.fst).length := by
        refine length_eq_of_nodup_mutual _ _ inv1 (nodup_keys_sortedEdgeChars _) ?_
        intro x
        constructor
        · intro hx
          exact alookup_isSome_mem _ _ (inv4 x (mem_alookup_isSome _ _ hx))
        · intro hx
          obtain ⟨xc, hxc, hfst⟩ := List.mem_map.mp hx
          subst hfst
          exact alookup_isSome_mem _ _ (cover xc hxc)
      simpa using h1
    exact hkeylen

/-- C8: for every row of the input the scanner emits exactly the maximal
non-overlapping matches of `\(?[0-9A-Za-z_{}]+\)?` in left-to-right order
— each with literal text equal to the full match and root position
`(match start column, row)` — i.e. the embedded `re.finditer` scan
coincides with the leftmost-maximal-munch scan; and a token is classified
as a Label iff its text starts with `(` and ends with `)`. -/
theorem c8_scanner_maximal_munch :
    (∀ s : List Char, node_iter s = specNodeIter s) ∧
    (∀ (l : List Char) (col : Nat), scanLine l col = specScanLine l col) ∧
    (∀ t : List Char, isLabelText t = true ↔
      (t.head? = some '(' ∧ t.getLast? = some ')')) := by
  have hscan : ∀ (l : List Char) (col : Nat), scanLine l col = specScanLine l col :=
    fun l col => scanLineAux_eq_specScanAux l.length l col
  refine ⟨?_, hscan, ?_⟩
  · intro s
    unfold node_iter specNodeIter
    have hfun : (fun rl : Nat × List Char =>
        (scanLine rl.2 0).map (fun tc => (tc.1, Point.mk (Int.ofNat tc.2) (Int.ofNat rl.1)))) =
        (fun rl : Nat × List Char =>
        (specScanLine rl.2 0).map
          (fun tc => (tc.1, Point.mk (Int.ofNat tc.2) (Int.ofNat rl.1)))) := by
      funext rl
      rw [hscan]
    rw [hfun]
  · intro t
    unfold isLabelText
    rcases t with _ | ⟨c, rest⟩
    · simp
    · rw [Bool.and_eq_true]
      simp only [decide_eq_true_eq, List.headD_cons]
      constructor
      · rintro ⟨h1, h2⟩
        subst h1
        refine ⟨List.head?_cons, ?_⟩
        rw [List.getLastD_eq_getLast?] at h2
        rcases hgl : ('(' :: rest).getLast? with _ | x
        · rw [List.getLast?_eq_none_iff] at hgl
          cases hgl
        · rw [hgl] at h2
          simp only [Option.getD_some] at h2
          rw [h2]
      · rintro ⟨h1, h2⟩
        rw [List.head?_cons] at h1
        refine ⟨Option.some.inj h1, ?_⟩
        rw [List.getLastD_eq_getLast?, h2]
        rfl

/-- Witness for C4 at the concrete input `"n1-n2"`. -/
theorem c4_partition_witness :
    graph_from_ascii "n1-n2" =
        Except.ok
          ⟨[(['n', '1'], some ⟨0, 0⟩), (['n', '2'], some ⟨3, 0⟩)],
           [((['n', '1'], ['n', '2']), ⟨some 1, none⟩)]⟩ ∧
    ((∀ pc ∈ sortedEdgeChars "n1-n2".toList,
      ∃ i, (i < (traceResult "n1-n2".toList).edges.length ∧
          pc.1 ∈ pointsOf (traceResult "n1-n2".toList) i) ∧
        ∀ j, j < (traceResult "n1-n2".toList).edges.length →
          pc.1 ∈ pointsOf (traceResult "n1-n2".toList) j → j = i) ∧
    ((traceResult "n1-n2".toList).edges.map (fun e => e.points.length)).sum =
      (sortedEdgeChars "n1-n2".toList).length) :=
  ⟨by decide,
    c4_partition "n1-n2"
      ⟨[(['n', '1'], some ⟨0, 0⟩), (['n', '2'], some ⟨3, 0⟩)],
       [((['n', '1'], ['n', '2']), ⟨some 1, none⟩)]⟩ (by decide)⟩

end Asciigraf
